import Mathlib

/-!
# GitHub user activity: grouping and rendering of events

A shallow embedding of `src/entities.go` and of the pure part of `src/main.go`
(`GroupEvents`, `RepresentOutput`), followed by the properties proved about it.

Conventions of the embedding:
* Go slices are Lean lists, Go strings are Lean strings;
* a `for _, x := range xs` loop that updates local variables is a left fold over `xs`
  whose accumulator is the tuple of the updated variables;
* an index expression `xs[i]` that Go would abort on (index out of range) makes the
  embedded function return `none`;
* `fmt.Sprintf` with the verbs `%s` and `%d` is string concatenation, `%d` of a
  non-negative `int` being its decimal representation (`toString` on `Nat`).
-/

namespace GitHubUserActivity

/-! ## Data model (`src/entities.go`) -/

/-- The `Actor` struct. -/
structure Actor where
  Login : String
  deriving DecidableEq

/-- The `Repo` struct. -/
structure Repo where
  Name : String
  deriving DecidableEq

/-- The `Commit` struct. -/
structure Commit where
  SHA : String
  deriving DecidableEq

/-- The `Payload` struct. -/
structure Payload where
  Ref : String
  RefType : String
  Commits : List Commit
  Action : String
  deriving DecidableEq

/-- The `Event` struct. The field `Type` is written `Typ` (`Type` is reserved in Lean);
`CreatedAt` is the instant of the `time.Time` value, as a
number of nanoseconds. -/
structure Event where
  Typ : String
  Actor : Actor
  Repo : Repo
  Payload : Payload
  CreatedAt : Int
  deriving DecidableEq

/-! ## `GroupEvents` (`src/main.go`, lines 49-69) -/

/-- One iteration of the loop of `GroupEvents`; the state is `(groups, currentGroup)`.
`currentGroup.getLast?` is `none` exactly when `len(currentGroup) == 0`, and otherwise
holds `currentGroup[len(currentGroup)-1]`. -/
def groupStep (st : List (List Event) × List Event) (event : Event) :
    List (List Event) × List Event :=
  match st.2.getLast? with
  | none => (st.1, st.2 ++ [event])
  | some last =>
    if event.Typ ≠ last.Typ ∨ event.Actor.Login ≠ last.Actor.Login then
      (st.1 ++ [st.2], [] ++ [event])
    else
      (st.1, st.2 ++ [event])

/-- The function `GroupEvents`: the loop over `events` starting from two empty slices,
then the final `groups = append(groups, currentGroup)`. -/
def GroupEvents (events : List Event) : List (List Event) :=
  let st := events.foldl groupStep ([], [])
  st.1 ++ [st.2]

/-! ## `RepresentOutput` (`src/main.go`, lines 72-213) -/

/-- A per-event loop `for _, event := range group { output += record }`, where `record`
is the formatted line of `event`. -/
def perEvent (record : Event → String) (output : String) (group : List Event) : String :=
  group.foldl (fun out event => out ++ record event) output

/-- The body of the loop `for _, group := range groups` of `RepresentOutput`: the
`switch group[0].Type`. The result is `none` when `group[0]` is out of range. -/
def renderGroup (output : String) (group : List Event) : Option String :=
  match group.head? with
  | none => none
  | some first =>
    let t := first.Typ
    if t = "CommitCommentEvent" then
      let count := group.length
      let login := first.Actor.Login
      let repo := first.Repo.Name
      some (output ++ ("- " ++ login ++ " commented commit " ++ toString count
        ++ " times (" ++ repo ++ ")\n"))
    else if t = "CreateEvent" then
      some (perEvent (fun event => "- " ++ event.Actor.Login ++ " created a "
        ++ event.Payload.RefType ++ " (" ++ event.Repo.Name ++ ")\n") output group)
    else if t = "DeleteEvent" then
      some (perEvent (fun event => "- " ++ event.Actor.Login ++ " deleted a "
        ++ event.Payload.RefType ++ " (" ++ event.Repo.Name ++ ")\n") output group)
    else if t = "ForkEvent" then
      some (perEvent (fun event => "- " ++ event.Actor.Login ++ " forked "
        ++ event.Repo.Name ++ "\n") output group)
    else if t = "GollumEvent" then
      let count := group.length
      let login := first.Actor.Login
      let repo := first.Repo.Name
      some (output ++ ("- " ++ login ++ " updated wiki " ++ toString count
        ++ " times (" ++ repo ++ ")\n"))
    else if t = "IssueCommentEvent" then
      some (perEvent (fun event => "- " ++ event.Actor.Login ++ " "
        ++ event.Payload.Action ++ " comment on some issue(" ++ event.Repo.Name ++ ")\n")
        output group)
    else if t = "IssueEvent" then
      some (perEvent (fun event => "- " ++ event.Actor.Login ++ " "
        ++ event.Payload.Action ++ " an issue (" ++ event.Repo.Name ++ ")\n") output group)
    else if t = "MemberEvent" then
      some (perEvent (fun event => "- " ++ event.Actor.Login ++ " "
        ++ event.Payload.Action ++ " collaboration (" ++ event.Repo.Name ++ ")\n")
        output group)
    else if t = "PublicEvent" then
      some (perEvent (fun event => "- " ++ event.Actor.Login ++ " "
        ++ event.Payload.Action ++ " " ++ event.Repo.Name ++ "\n") output group)
    else if t = "PullRequestEvent" then
      some (perEvent (fun event => "- " ++ event.Actor.Login ++ " "
        ++ event.Payload.Action ++ " pull request (" ++ event.Repo.Name ++ ")\n")
        output group)
    else if t = "PullRequestReviewEvent" then
      some (perEvent (fun event => "- " ++ event.Actor.Login ++ " "
        ++ event.Payload.Action ++ " pull request review (" ++ event.Repo.Name ++ ")\n")
        output group)
    else if t = "PullRequestReviewCommentEvent" then
      some (perEvent (fun event => "- " ++ event.Actor.Login ++ " "
        ++ event.Payload.Action ++ " pull request review comment (" ++ event.Repo.Name
        ++ ")\n") output group)
    else if t = "PullRequestReviewThreadEvent" then
      some (perEvent (fun event => "- " ++ event.Actor.Login ++ " "
        ++ event.Payload.Action ++ " comment thread on pull request ("
        ++ event.Repo.Name ++ ")\n") output group)
    else if t = "PushEvent" then
      let login := first.Actor.Login
      let commitsCount := first.Payload.Commits.length
      let repo := first.Repo.Name
      some (output ++ ("- " ++ login ++ " pushed " ++ toString commitsCount
        ++ " commits (" ++ repo ++ ")\n"))
    else if t = "ReleaseEvent" then
      some (perEvent (fun event => "- " ++ event.Actor.Login ++ " "
        ++ event.Payload.Action ++ " " ++ event.Repo.Name ++ "\n") output group)
    else if t = "SponsorshipEvent" then
      some (perEvent (fun event => "- " ++ event.Actor.Login ++ " "
        ++ event.Payload.Action ++ " sponsorship listing on " ++ event.Repo.Name ++ "\n")
        output group)
    else if t = "WatchEvent" then
      some (perEvent (fun event => "- " ++ event.Actor.Login ++ " starred "
        ++ event.Repo.Name ++ "\n") output group)
    else
      some output

/-- The function `RepresentOutput`. The result is `none` when `groups[0]` or some
`group[0]` is out of range, and otherwise the returned string. -/
def RepresentOutput (groups : List (List Event)) : Option String :=
  match groups.head? with
  | none => none
  | some g0 =>
    if g0.length = 0 then
      some "Specified user has no public activity"
    else
      groups.foldlM renderGroup ""

/-! ## `main` (`src/main.go`, lines 215-221) -/

/-- The text that `fmt.Println` writes for one string operand: the operand followed by a
newline. -/
def Println (s : String) : String :=
  s ++ "\n"

/-- The text that `main` writes to standard output once `GetSortedEvents` has returned
`events`: `fmt.Println(RepresentOutput(GroupEvents(events)))`. -/
def mainOutput (events : List Event) : Option String :=
  (RepresentOutput (GroupEvents events)).map Println

/-- The number of newline characters at the end of a text. -/
def trailingNewlines (s : String) : Nat :=
  (s.data.reverse.takeWhile fun c => c = '\n').length

/-! ## The sort step of `GetSortedEvents` (`src/main.go`, lines 41-45) -/

/-- The comparison given to `sort.Slice`, on the events at the two indices:
`events[i].CreatedAt.Before(events[j].CreatedAt)`. -/
def less (a b : Event) : Bool :=
  decide (a.CreatedAt < b.CreatedAt)

/-- A slice is sorted for a comparison when no element is less than the element before
it; this is the check made by the library function `sort.SliceIsSorted`. -/
def isSortedBy (lt : Event → Event → Bool) : List Event → Bool
  | [] => true
  | [_] => true
  | a :: b :: rest => !lt b a && isSortedBy lt (b :: rest)

/-- The requirement that the documentation of `sort.Slice` puts on the comparison: it
describes a transitive ordering, that is, if `lt a b` and `lt b c` hold then `lt a c`
holds, and if `lt a b` and `lt b c` both fail then `lt a c` fails. -/
def TransitiveOrdering (lt : Event → Event → Bool) : Prop :=
  (∀ a b c, lt a b = true → lt b c = true → lt a c = true) ∧
    (∀ a b c, lt a b = false → lt b c = false → lt a c = false)

/-- The library function `sort.Slice`, whose code is not in the repository, stands here
with the behaviour its documentation gives it: after the call the slice holds the
elements it held before; it is sorted for the comparison if the comparison describes a
transitive ordering; and the sort is not guaranteed to be stable, equal elements may be
reversed from their original order. `SortSlice lt events sorted` says that `sorted` is a
content that the slice may have after the call on `events`. -/
def SortSlice (lt : Event → Event → Bool) (events sorted : List Event) : Prop :=
  sorted.Perm events ∧ (TransitiveOrdering lt → isSortedBy lt sorted = true)

/-! ## Sample events -/

/-- An event with the given type, actor, repository and number of commits, every other
field being empty. -/
def mkEvent (type login repo : String) (commits : Nat) : Event :=
  { Typ := type, Actor := ⟨login⟩, Repo := ⟨repo⟩,
    Payload := { Ref := "", RefType := "", Commits := List.replicate commits ⟨""⟩,
                 Action := "" },
    CreatedAt := 0 }

/-- One `PushEvent` of `alice` on `octo/demo` with three commits. -/
def alicePush : Event := mkEvent "PushEvent" "alice" "octo/demo" 3

/-- A later `PushEvent` of `alice`, on `octo/other`, with five commits. -/
def alicePush2 : Event := mkEvent "PushEvent" "alice" "octo/other" 5

/-- Three `WatchEvent`s of `bob` on `r1`, `r2`, `r3`. -/
def bobWatches : List Event :=
  [mkEvent "WatchEvent" "bob" "r1" 0, mkEvent "WatchEvent" "bob" "r2" 0,
    mkEvent "WatchEvent" "bob" "r3" 0]

/-- Two `CommitCommentEvent`s of `carol` on `x/y`. -/
def carolComments : List Event :=
  [mkEvent "CommitCommentEvent" "carol" "x/y" 0, mkEvent "CommitCommentEvent" "carol" "x/y" 0]

/-- One `ForkEvent` of `carol` on `x/y`. -/
def carolFork : Event := mkEvent "ForkEvent" "carol" "x/y" 0

/-- Two `GollumEvent`s of `dave`, on `w/a` then on `w/b`. -/
def daveWiki : List Event :=
  [mkEvent "GollumEvent" "dave" "w/a" 0, mkEvent "GollumEvent" "dave" "w/b" 0]

/-- An event of a type that is not a case of the `switch` of `RepresentOutput`. -/
def unknownEvent : Event := mkEvent "UnknownEvent" "carol" "x/y" 0

/-- A `ForkEvent` of `carol` followed by two `WatchEvent`s of `bob` and one of `carol`. -/
def mixedPerEvent : List Event :=
  [mkEvent "ForkEvent" "carol" "x/y" 0, mkEvent "WatchEvent" "bob" "r1" 0,
    mkEvent "WatchEvent" "bob" "r2" 0, mkEvent "WatchEvent" "carol" "r3" 0]

/-- One `CommitCommentEvent` of `carol` on `x/y`. -/
def carolComment : Event := mkEvent "CommitCommentEvent" "carol" "x/y" 0

/-- A `PushEvent` of `alice` created at the instant 5. -/
def latePush : Event := { alicePush with CreatedAt := 5 }

/-- A `ForkEvent` of `carol` created at the instant 1. -/
def earlyFork : Event := { carolFork with CreatedAt := 1 }

/-! ## The library function `sort.Slice`, as an algorithm

The code of `sort.Slice` is not in the repository. What follows embeds, from the package
`sort` of the Go distribution (release 1.19 and later, file `zsortfunc.go`), the parts of
`pdqsort_func` that a run on a short slice goes through: `insertionSort_func`,
`choosePivot_func`, `reverseRange_func`, the scan of `partialInsertionSort_func` and
`partition_func`. A run that reaches another part of the library (`heapSort_func`,
`breakPatterns_func`, `partitionEqual_func`, the shifting of
`partialInsertionSort_func`) has the result `none`. The slice is a list, `data.Less(i, j)`
is the comparison of `GetSortedEvents` on the elements at `i` and `j`, and `data.Swap(i,
j)` exchanges them; the library keeps every index within the slice. -/

/-- The call `data.Less(i, j)`. -/
def lessAt (data : List Event) (i j : Nat) : Bool :=
  match data[i]?, data[j]? with
  | some x, some y => less x y
  | _, _ => false

/-- The call `data.Swap(i, j)`. -/
def swapAt (data : List Event) (i j : Nat) : List Event :=
  match data[i]?, data[j]? with
  | some x, some y => (data.set i y).set j x
  | _, _ => data

/-- The inner loop of `insertionSort_func`, started at `j`:
`for j := i; j > a && data.Less(j, j-1); j-- { data.Swap(j, j-1) }`. -/
def insertionInner (a : Nat) : Nat → List Event → List Event
  | 0, data => data
  | j + 1, data =>
    if j + 1 > a ∧ lessAt data (j + 1) j = true then
      insertionInner a j (swapAt data (j + 1) j)
    else
      data

/-- The function `insertionSort_func` on `data[a:b]`: the loop
`for i := a + 1; i < b; i++` around the inner loop. -/
def insertionSortFunc (data : List Event) (a b : Nat) : List Event :=
  (List.range' (a + 1) (b - (a + 1))).foldl (fun data i => insertionInner a i data) data

/-- The type `sortedHint`. -/
inductive SortedHint where
  | unknownHint
  | increasingHint
  | decreasingHint
  deriving DecidableEq

/-- The function `order2_func`: the two indices in the order of their elements, and the
updated count of swaps. -/
def order2Func (data : List Event) (a b swaps : Nat) : Nat × Nat × Nat :=
  if lessAt data b a then (b, a, swaps + 1) else (a, b, swaps)

/-- The function `median_func`: the index of the median of three elements, and the
updated count of swaps. -/
def medianFunc (data : List Event) (a b c swaps : Nat) : Nat × Nat :=
  let r₁ := order2Func data a b swaps
  let r₂ := order2Func data r₁.2.1 c r₁.2.2
  let r₃ := order2Func data r₁.1 r₂.1 r₂.2.2
  (r₃.2.1, r₃.2.2)

/-- The function `medianAdjacent_func`. -/
def medianAdjacentFunc (data : List Event) (a swaps : Nat) : Nat × Nat :=
  medianFunc data (a - 1) a (a + 1) swaps

/-- The function `choosePivot_func` on `data[a:b]`: the index of the pivot and the hint. -/
def choosePivotFunc (data : List Event) (a b : Nat) : Nat × SortedHint :=
  let l := b - a
  let i := a + l / 4 * 1
  let j := a + l / 4 * 2
  let k := a + l / 4 * 3
  let r :=
    if l ≥ 8 then
      if l ≥ 50 then
        let ri := medianAdjacentFunc data i 0
        let rj := medianAdjacentFunc data j ri.2
        let rk := medianAdjacentFunc data k rj.2
        medianFunc data ri.1 rj.1 rk.1 rk.2
      else
        medianFunc data i j k 0
    else
      (j, 0)
  if r.2 = 0 then (r.1, SortedHint.increasingHint)
  else if r.2 = 4 * 3 then (r.1, SortedHint.decreasingHint)
  else (r.1, SortedHint.unknownHint)

/-- The loop `for i < j { data.Swap(i, j); i++; j-- }` of `reverseRange_func`, which runs
at most `fuel` times. -/
def reverseLoop : Nat → List Event → Nat → Nat → List Event
  | 0, data, _, _ => data
  | fuel + 1, data, i, j =>
    if i < j then reverseLoop fuel (swapAt data i j) (i + 1) (j - 1) else data

/-- The function `reverseRange_func` on `data[a:b]`. -/
def reverseRangeFunc (data : List Event) (a b : Nat) : List Event :=
  reverseLoop (b - a) data a (b - 1)

/-- The loop `for i < b && !data.Less(i, i-1) { i++ }`, which runs at most `fuel` times:
the value of `i` after it. -/
def scanSorted (data : List Event) (b : Nat) : Nat → Nat → Nat
  | 0, i => i
  | fuel + 1, i =>
    if i < b ∧ lessAt data i (i - 1) = false then scanSorted data b fuel (i + 1) else i

/-- The function `partialInsertionSort_func` on `data[a:b]`, up to the point where it
shifts elements: `some true` when the scan finds the slice sorted, `some false` when it
does not and the slice is shorter than `shortestShifting = 50`, and `none` when the
function goes on to shift elements. The slice is unchanged in the first two cases. -/
def partialInsertionSortFunc (data : List Event) (a b : Nat) : Option Bool :=
  let i := scanSorted data b (b - a) (a + 1)
  if i = b then some true
  else if b - a < 50 then some false
  else none

/-- The loop `for i <= j && data.Less(i, a) { i++ }` of `partition_func`, which runs at
most `fuel` times: the value of `i` after it. -/
def scanLeft (data : List Event) (a j : Nat) : Nat → Nat → Nat
  | 0, i => i
  | fuel + 1, i =>
    if i ≤ j ∧ lessAt data i a = true then scanLeft data a j fuel (i + 1) else i

/-- The loop `for i <= j && !data.Less(j, a) { j-- }` of `partition_func`, which runs at
most `fuel` times: the value of `j` after it. -/
def scanRight (data : List Event) (a i : Nat) : Nat → Nat → Nat
  | 0, j => j
  | fuel + 1, j =>
    if i ≤ j ∧ lessAt data j a = false then scanRight data a i fuel (j - 1) else j

/-- The main loop of `partition_func`, which runs at most `fuel` times: the two scans,
then `break` when `i > j`, and otherwise `data.Swap(i, j); i++; j--`. The result is the
slice and the value of `j` after the loop. -/
def partitionLoop (a : Nat) : Nat → List Event → Nat → Nat → List Event × Nat
  | 0, data, _, j => (data, j)
  | fuel + 1, data, i, j =>
    let i₁ := scanLeft data a j (j + 1 - i) i
    let j₁ := scanRight data a i₁ (j + 1 - i₁) j
    if i₁ > j₁ then (data, j₁)
    else partitionLoop a fuel (swapAt data i₁ j₁) (i₁ + 1) (j₁ - 1)

/-- The function `partition_func` on `data[a:b]` with the pivot at `pivot`: the slice,
the new index of the pivot and whether the slice was already partitioned. -/
def partitionFunc (data : List Event) (a b pivot : Nat) : List Event × Nat × Bool :=
  let data₀ := swapAt data a pivot
  let i := scanLeft data₀ a (b - 1) (b - a) (a + 1)
  let j := scanRight data₀ a i (b - a) (b - 1)
  if i > j then
    (swapAt data₀ j a, j, true)
  else
    let r := partitionLoop a (b - a) (swapAt data₀ i j) (i + 1) (j - 1)
    (swapAt r.1 r.2 a, r.2, false)

/-- The function `pdqsort_func` on `data[a:b]`; the two last arguments are the variables
`wasBalanced` and `wasPartitioned` of its loop, of which one iteration is one unfolding.
The result is `none` when the run reaches a part of the library that is not embedded, or
after `fuel` iterations. -/
def pdqsortFunc : Nat → List Event → Nat → Nat → Nat → Bool → Bool → Option (List Event)
  | 0, _, _, _, _, _, _ => none
  | fuel + 1, data, a, b, limit, wasBalanced, wasPartitioned =>
    let length := b - a
    if length ≤ 12 then
      some (insertionSortFunc data a b)
    else if limit = 0 then
      none
    else if wasBalanced = false then
      none
    else
      let chosen := choosePivotFunc data a b
      let data₁ :=
        if chosen.2 = SortedHint.decreasingHint then reverseRangeFunc data a b else data
      let pivot :=
        if chosen.2 = SortedHint.decreasingHint then (b - 1) - (chosen.1 - a) else chosen.1
      let hint :=
        if chosen.2 = SortedHint.decreasingHint then SortedHint.increasingHint else chosen.2
      let sorted :=
        if wasBalanced ∧ wasPartitioned ∧ hint = SortedHint.increasingHint then
          partialInsertionSortFunc data₁ a b
        else
          some false
      match sorted with
      | none => none
      | some true => some data₁
      | some false =>
        if a > 0 ∧ lessAt data₁ (a - 1) pivot = false then
          none
        else
          let r := partitionFunc data₁ a b pivot
          let mid := r.2.1
          let leftLen := mid - a
          let rightLen := b - mid
          let balanceThreshold := length / 8
          if leftLen < rightLen then
            match pdqsortFunc fuel r.1 a mid limit true true with
            | none => none
            | some data₂ =>
              pdqsortFunc fuel data₂ (mid + 1) b limit (decide (leftLen ≥ balanceThreshold))
                r.2.2
          else
            match pdqsortFunc fuel r.1 (mid + 1) b limit true true with
            | none => none
            | some data₂ =>
              pdqsortFunc fuel data₂ a mid limit (decide (rightLen ≥ balanceThreshold)) r.2.2

/-- The number of bits of `n`, as `bits.Len` gives it, computed in at most `fuel`
halvings. -/
def bitsLenAux : Nat → Nat → Nat
  | 0, _ => 0
  | fuel + 1, n => if n = 0 then 0 else 1 + bitsLenAux fuel (n / 2)

/-- The function `bits.Len` on a length. -/
def bitsLen (n : Nat) : Nat :=
  bitsLenAux n n

/-- The sort step of `GetSortedEvents`, `sort.Slice(events, less)`: `pdqsort_func` on the
whole slice with the limit `bits.Len(length)`. Every iteration of `pdqsort_func` that
does not return makes the slice it works on shorter, so the loop is given one iteration
more than the length. -/
def sortSlice (events : List Event) : Option (List Event) :=
  pdqsortFunc (events.length + 1) events 0 events.length (bitsLen events.length) true true

/-- Thirteen `WatchEvent`s of the actors `u0`, ..., `u12`, all created at the instant 1
except the last one, created at the instant 0. -/
def thirteenEvents : List Event :=
  [{ mkEvent "WatchEvent" "u0" "r" 0 with CreatedAt := 1 },
    { mkEvent "WatchEvent" "u1" "r" 0 with CreatedAt := 1 },
    { mkEvent "WatchEvent" "u2" "r" 0 with CreatedAt := 1 },
    { mkEvent "WatchEvent" "u3" "r" 0 with CreatedAt := 1 },
    { mkEvent "WatchEvent" "u4" "r" 0 with CreatedAt := 1 },
    { mkEvent "WatchEvent" "u5" "r" 0 with CreatedAt := 1 },
    { mkEvent "WatchEvent" "u6" "r" 0 with CreatedAt := 1 },
    { mkEvent "WatchEvent" "u7" "r" 0 with CreatedAt := 1 },
    { mkEvent "WatchEvent" "u8" "r" 0 with CreatedAt := 1 },
    { mkEvent "WatchEvent" "u9" "r" 0 with CreatedAt := 1 },
    { mkEvent "WatchEvent" "u10" "r" 0 with CreatedAt := 1 },
    { mkEvent "WatchEvent" "u11" "r" 0 with CreatedAt := 1 },
    { mkEvent "WatchEvent" "u12" "r" 0 with CreatedAt := 0 }]

/-! ## The rendering table, as lists of lines -/

/-- The types of the `switch` of `RepresentOutput` that render one summary line per group. -/
def aggregateTypes : List String :=
  ["CommitCommentEvent", "GollumEvent", "PushEvent"]

/-- The types of the `switch` of `RepresentOutput` that render one line per event. -/
def perEventTypes : List String :=
  ["CreateEvent", "DeleteEvent", "ForkEvent", "IssueCommentEvent", "IssueEvent",
    "MemberEvent", "PublicEvent", "PullRequestEvent", "PullRequestReviewEvent",
    "PullRequestReviewCommentEvent", "PullRequestReviewThreadEvent", "ReleaseEvent",
    "SponsorshipEvent", "WatchEvent"]

/-- The 17 case labels of the `switch` of `RepresentOutput`, in the order of the source. -/
def recognizedTypes : List String :=
  ["CommitCommentEvent", "CreateEvent", "DeleteEvent", "ForkEvent", "GollumEvent",
    "IssueCommentEvent", "IssueEvent", "MemberEvent", "PublicEvent", "PullRequestEvent",
    "PullRequestReviewEvent", "PullRequestReviewCommentEvent",
    "PullRequestReviewThreadEvent", "PushEvent", "ReleaseEvent", "SponsorshipEvent",
    "WatchEvent"]

/-- The per-event template of the type tag `t` (section 4.4 of the specification) filled
with the fields of `e`, without the line terminator; the empty string for a tag that has
no per-event template. -/
def perEventLine (t : String) (e : Event) : String :=
  if t = "CreateEvent" then
    "- " ++ e.Actor.Login ++ " created a " ++ e.Payload.RefType ++ " (" ++ e.Repo.Name ++ ")"
  else if t = "DeleteEvent" then
    "- " ++ e.Actor.Login ++ " deleted a " ++ e.Payload.RefType ++ " (" ++ e.Repo.Name ++ ")"
  else if t = "ForkEvent" then
    "- " ++ e.Actor.Login ++ " forked " ++ e.Repo.Name
  else if t = "IssueCommentEvent" then
    "- " ++ e.Actor.Login ++ " " ++ e.Payload.Action ++ " comment on some issue("
      ++ e.Repo.Name ++ ")"
  else if t = "IssueEvent" then
    "- " ++ e.Actor.Login ++ " " ++ e.Payload.Action ++ " an issue (" ++ e.Repo.Name ++ ")"
  else if t = "MemberEvent" then
    "- " ++ e.Actor.Login ++ " " ++ e.Payload.Action ++ " collaboration (" ++ e.Repo.Name
      ++ ")"
  else if t = "PublicEvent" then
    "- " ++ e.Actor.Login ++ " " ++ e.Payload.Action ++ " " ++ e.Repo.Name
  else if t = "PullRequestEvent" then
    "- " ++ e.Actor.Login ++ " " ++ e.Payload.Action ++ " pull request (" ++ e.Repo.Name
      ++ ")"
  else if t = "PullRequestReviewEvent" then
    "- " ++ e.Actor.Login ++ " " ++ e.Payload.Action ++ " pull request review ("
      ++ e.Repo.Name ++ ")"
  else if t = "PullRequestReviewCommentEvent" then
    "- " ++ e.Actor.Login ++ " " ++ e.Payload.Action ++ " pull request review comment ("
      ++ e.Repo.Name ++ ")"
  else if t = "PullRequestReviewThreadEvent" then
    "- " ++ e.Actor.Login ++ " " ++ e.Payload.Action ++ " comment thread on pull request ("
      ++ e.Repo.Name ++ ")"
  else if t = "ReleaseEvent" then
    "- " ++ e.Actor.Login ++ " " ++ e.Payload.Action ++ " " ++ e.Repo.Name
  else if t = "SponsorshipEvent" then
    "- " ++ e.Actor.Login ++ " " ++ e.Payload.Action ++ " sponsorship listing on "
      ++ e.Repo.Name
  else if t = "WatchEvent" then
    "- " ++ e.Actor.Login ++ " starred " ++ e.Repo.Name
  else
    ""

/-- The lines that the rendering rules of section 4.4 of the specification produce for a
group, without their terminators, the rule being chosen by the type of the first event:
one summary line in aggregate mode, one line per event in per-event mode, no line for
another type or for the empty group. -/
def groupLines (group : List Event) : List String :=
  match group.head? with
  | none => []
  | some first =>
    if first.Typ = "CommitCommentEvent" then
      ["- " ++ first.Actor.Login ++ " commented commit " ++ toString group.length
        ++ " times (" ++ first.Repo.Name ++ ")"]
    else if first.Typ = "GollumEvent" then
      ["- " ++ first.Actor.Login ++ " updated wiki " ++ toString group.length
        ++ " times (" ++ first.Repo.Name ++ ")"]
    else if first.Typ = "PushEvent" then
      ["- " ++ first.Actor.Login ++ " pushed " ++ toString first.Payload.Commits.length
        ++ " commits (" ++ first.Repo.Name ++ ")"]
    else if first.Typ ∈ perEventTypes then
      group.map (perEventLine first.Typ)
    else
      []

/-- The text of a list of lines, each followed by its newline terminator. -/
def terminated (lines : List String) : String :=
  String.join (lines.map fun line => line ++ "\n")

/-- The text of the lines of a list of groups, in group order. -/
def groupsText (groups : List (List Event)) : String :=
  terminated (groups.map groupLines).flatten

/-- The lines rendered for a list of events, as a text: no line for the empty list, and
otherwise the result of `GroupEvents` then `RepresentOutput`. -/
def renderedLines (events : List Event) : Option String :=
  if events = [] then some "" else RepresentOutput (GroupEvents events)

/-- The number of indices `i` with `i + 1 < n` at which the events `e_i` and `e_(i+1)` of
the list `e_0, ..., e_(n-1)` differ in `Type` or in `Actor.Login`: the pairs
`(e_i, e_(i+1))` are those of the list zipped with its tail. -/
def breaks (events : List Event) : Nat :=
  (events.zip events.tail).countP fun p =>
    decide (p.1.Typ ≠ p.2.Typ ∨ p.1.Actor.Login ≠ p.2.Actor.Login)

/-! ## `GroupEvents` with explicit index expressions -/

/-- One iteration of the loop of `GroupEvents`, the read of
`currentGroup[len(currentGroup)-1]` being an index expression that yields `none` when it
is out of range. -/
def groupStepIdx (st : List (List Event) × List Event) (event : Event) :
    Option (List (List Event) × List Event) :=
  if st.2.length = 0 then
    some (st.1, st.2 ++ [event])
  else
    match st.2[st.2.length - 1]? with
    | none => none
    | some last =>
      if event.Typ ≠ last.Typ ∨ event.Actor.Login ≠ last.Actor.Login then
        some (st.1 ++ [st.2], [] ++ [event])
      else
        some (st.1, st.2 ++ [event])

/-- The function `GroupEvents` with explicit index expressions: `none` when an index is
out of range. -/
def GroupEventsIdx (events : List Event) : Option (List (List Event)) :=
  (events.foldlM groupStepIdx ([], [])).map fun st => st.1 ++ [st.2]

/-! ## The loop invariant of `GroupEvents` -/

/-- Two events have the same `(Type, Actor.Login)` pair. -/
def sameKey (a b : Event) : Prop :=
  a.Typ = b.Typ ∧ a.Actor.Login = b.Actor.Login

/-- Every two events of a group have the same `(Type, Actor.Login)` pair. -/
def Homogeneous (g : List Event) : Prop :=
  ∀ a ∈ g, ∀ b ∈ g, sameKey a b

/-- Two groups are non-empty and no event of the first has the `(Type, Actor.Login)`
pair of an event of the second. -/
def Separated (g h : List Event) : Prop :=
  g ≠ [] ∧ h ≠ [] ∧ ∀ a ∈ g, ∀ b ∈ h, a.Typ ≠ b.Typ ∨ a.Actor.Login ≠ b.Actor.Login

/-- The invariant of the loop of `GroupEvents` on the state `(groups, currentGroup)`. -/
structure GroupInv (st : List (List Event) × List Event) : Prop where
  closed_nonempty : ∀ g ∈ st.1, g ≠ []
  empty_run : st.2 = [] → st.1 = []
  homogeneous : ∀ g ∈ st.1 ++ [st.2], Homogeneous g
  separated : List.Chain' Separated (st.1 ++ [st.2])

theorem sameKey_symm {a b : Event} (h : sameKey a b) : sameKey b a :=
  ⟨h.1.symm, h.2.symm⟩

theorem sameKey_trans {a b c : Event} (h₁ : sameKey a b) (h₂ : sameKey b c) : sameKey a c :=
  ⟨h₁.1.trans h₂.1, h₁.2.trans h₂.2⟩

theorem sameKey_iff_not_differ (a b : Event) :
    sameKey a b ↔ ¬ (a.Typ ≠ b.Typ ∨ a.Actor.Login ≠ b.Actor.Login) := by
  unfold sameKey
  constructor
  · rintro ⟨h₁, h₂⟩ (h | h)
    · exact h h₁
    · exact h h₂
  · intro h
    exact ⟨by_contra fun h₁ => h (Or.inl h₁), by_contra fun h₂ => h (Or.inr h₂)⟩

/-- The step taken on an empty run. -/
theorem groupStep_nil (gs : List (List Event)) (e : Event) :
    groupStep (gs, []) e = (gs, [e]) := by
  simp [groupStep]

/-- The step taken when the event differs from the last event of the run. -/
theorem groupStep_differ (gs : List (List Event)) (ys : List Event) (l e : Event)
    (h : e.Typ ≠ l.Typ ∨ e.Actor.Login ≠ l.Actor.Login) :
    groupStep (gs, ys ++ [l]) e = (gs ++ [ys ++ [l]], [e]) := by
  simp only [groupStep, List.getLast?_concat, if_pos h, List.nil_append]

/-- The step taken when the event has the key of the last event of the run. -/
theorem groupStep_same (gs : List (List Event)) (ys : List Event) (l e : Event)
    (h : sameKey e l) :
    groupStep (gs, ys ++ [l]) e = (gs, ys ++ [l] ++ [e]) := by
  simp only [groupStep, List.getLast?_concat, if_neg ((sameKey_iff_not_differ e l).1 h)]

/-- A run is empty or ends with some event. -/
theorem run_cases (cur : List Event) : cur = [] ∨ ∃ ys l, cur = ys ++ [l] := by
  rcases List.eq_nil_or_concat cur with h | ⟨ys, l, h⟩
  · exact Or.inl h
  · exact Or.inr ⟨ys, l, by simpa using h⟩

theorem groupInv_init : GroupInv ([], []) where
  closed_nonempty := by simp
  empty_run := by simp
  homogeneous := by simp [Homogeneous]
  separated := by simp

theorem groupInv_step (st : List (List Event) × List Event) (e : Event)
    (inv : GroupInv st) : GroupInv (groupStep st e) := by
  obtain ⟨gs, cur⟩ := st
  rcases run_cases cur with rfl | ⟨ys, l, rfl⟩
  · have hgs : gs = [] := inv.empty_run rfl
    subst hgs
    rw [groupStep_nil]
    refine ⟨by simp, by simp, ?_, by simp⟩
    intro g hg a ha b hb
    simp only [List.nil_append, List.mem_singleton] at hg
    subst hg
    simp only [List.mem_singleton] at ha hb
    subst ha; subst hb
    exact ⟨rfl, rfl⟩
  · have hcur : Homogeneous (ys ++ [l]) := inv.homogeneous _ (by simp)
    have hl : l ∈ ys ++ [l] := by simp
    by_cases h : e.Typ ≠ l.Typ ∨ e.Actor.Login ≠ l.Actor.Login
    · rw [groupStep_differ gs ys l e h]
      refine ⟨?_, by simp, ?_, ?_⟩
      · intro g hg
        rcases List.mem_append.1 hg with hg | hg
        · exact inv.closed_nonempty g hg
        · simp only [List.mem_singleton] at hg
          subst hg; simp
      · intro g hg
        rcases List.mem_append.1 hg with hg | hg
        · exact inv.homogeneous g hg
        · simp only [List.mem_singleton] at hg
          subst hg
          intro a ha b hb
          simp only [List.mem_singleton] at ha hb
          subst ha; subst hb
          exact ⟨rfl, rfl⟩
      · refine List.chain'_append.2 ⟨inv.separated, by simp, ?_⟩
        intro x hx y hy
        simp only [List.getLast?_concat, Option.mem_def, Option.some.injEq] at hx
        simp only [List.head?_cons, Option.mem_def, Option.some.injEq] at hy
        subst hx; subst hy
        refine ⟨by simp, by simp, ?_⟩
        intro a ha b hb
        simp only [List.mem_singleton] at hb
        subst hb
        have hal : sameKey a l := hcur a ha l hl
        rcases h with h | h
        · exact Or.inl fun hab => h (hab.symm.trans hal.1)
        · exact Or.inr fun hab => h (hab.symm.trans hal.2)
    · have hel : sameKey e l := (sameKey_iff_not_differ e l).2 h
      rw [groupStep_same gs ys l e hel]
      have hnew : Homogeneous (ys ++ [l] ++ [e]) := by
        have key : ∀ a ∈ ys ++ [l] ++ [e], sameKey a l := by
          intro a ha
          rcases List.mem_append.1 ha with ha | ha
          · exact hcur a ha l hl
          · simp only [List.mem_singleton] at ha
            subst ha; exact hel
        intro a ha b hb
        exact sameKey_trans (key a ha) (sameKey_symm (key b hb))
      refine ⟨inv.closed_nonempty, by simp, ?_, ?_⟩
      · intro g hg
        rcases List.mem_append.1 hg with hg | hg
        · exact inv.homogeneous g (List.mem_append_left _ hg)
        · simp only [List.mem_singleton] at hg
          subst hg; exact hnew
      · have old := List.chain'_append.1 inv.separated
        refine List.chain'_append.2 ⟨old.1, by simp, ?_⟩
        intro x hx y hy
        simp only [List.head?_cons, Option.mem_def, Option.some.injEq] at hy
        subst hy
        obtain ⟨hx0, -, hsep⟩ := old.2.2 x hx (ys ++ [l]) (by simp)
        refine ⟨hx0, by simp, ?_⟩
        intro a ha b hb
        rcases List.mem_append.1 hb with hb | hb
        · exact hsep a ha b hb
        · simp only [List.mem_singleton] at hb
          subst hb
          rcases hsep a ha l hl with h₁ | h₁
          · exact Or.inl fun hab => h₁ (hab.trans hel.1)
          · exact Or.inr fun hab => h₁ (hab.trans hel.2)

theorem groupInv_foldl (events : List Event) :
    ∀ st, GroupInv st → GroupInv (events.foldl groupStep st) := by
  induction events with
  | nil => intro st inv; exact inv
  | cons e es ih => intro st inv; exact ih _ (groupInv_step st e inv)

/-- The run is empty after the loop only if the loop started from an empty run and
scanned no event. -/
theorem run_ne_nil_foldl (events : List Event) :
    ∀ st : List (List Event) × List Event, st.2 ≠ [] ∨ events ≠ [] →
      (events.foldl groupStep st).2 ≠ [] := by
  induction events with
  | nil => intro st h; simpa using h
  | cons e es ih =>
    intro st _
    refine ih _ (Or.inl ?_)
    obtain ⟨gs, cur⟩ := st
    rcases run_cases cur with rfl | ⟨ys, l, rfl⟩
    · simp [groupStep_nil]
    · by_cases h : e.Typ ≠ l.Typ ∨ e.Actor.Login ≠ l.Actor.Login
      · simp [groupStep_differ gs ys l e h]
      · simp [groupStep_same gs ys l e ((sameKey_iff_not_differ e l).2 h)]

theorem groupStep_flatten (st : List (List Event) × List Event) (e : Event) :
    (groupStep st e).1.flatten ++ (groupStep st e).2 = st.1.flatten ++ st.2 ++ [e] := by
  obtain ⟨gs, cur⟩ := st
  rcases run_cases cur with rfl | ⟨ys, l, rfl⟩
  · simp [groupStep_nil]
  · by_cases h : e.Typ ≠ l.Typ ∨ e.Actor.Login ≠ l.Actor.Login
    · simp [groupStep_differ gs ys l e h]
    · simp [groupStep_same gs ys l e ((sameKey_iff_not_differ e l).2 h)]

theorem foldl_groupStep_flatten (events : List Event) :
    ∀ st : List (List Event) × List Event,
      (events.foldl groupStep st).1.flatten ++ (events.foldl groupStep st).2
        = st.1.flatten ++ st.2 ++ events := by
  induction events with
  | nil => intro st; simp
  | cons e es ih =>
    intro st
    rw [List.foldl_cons, ih, groupStep_flatten]
    simp

/-- A homogeneous stretch of events extends the current run and closes no group. -/
theorem foldl_groupStep_run (events : List Event) :
    ∀ (gs : List (List Event)) (cur : List Event), Homogeneous (cur ++ events) →
      events.foldl groupStep (gs, cur) = (gs, cur ++ events) := by
  induction events with
  | nil => intro gs cur _; simp
  | cons e es ih =>
    intro gs cur hom
    have hom' : Homogeneous (cur ++ [e] ++ es) := by simpa using hom
    rw [List.foldl_cons]
    rcases run_cases cur with rfl | ⟨ys, l, rfl⟩
    · rw [groupStep_nil]
      simpa using ih gs [e] (by simpa using hom)
    · have hel : sameKey e l := hom e (by simp) l (by simp)
      rw [groupStep_same gs ys l e hel, ih gs _ hom']
      simp

/-- A non-empty homogeneous list is grouped into one group. -/
theorem GroupEvents_run (events : List Event) (hom : Homogeneous events) :
    GroupEvents events = [events] := by
  simp [GroupEvents, foldl_groupStep_run events [] [] (by simpa using hom)]

/-- A homogeneous list followed by an event with another key is grouped into two
groups. -/
theorem GroupEvents_run_then (ys : List Event) (l f : Event)
    (hom : Homogeneous (ys ++ [l]))
    (h : f.Typ ≠ l.Typ ∨ f.Actor.Login ≠ l.Actor.Login) :
    GroupEvents (ys ++ [l] ++ [f]) = [ys ++ [l], [f]] := by
  simp only [GroupEvents, List.foldl_append,
    foldl_groupStep_run (ys ++ [l]) [] [] (by simpa using hom), List.nil_append,
    List.foldl_cons, List.foldl_nil, groupStep_differ [] ys l f h, List.singleton_append]

/-! ## Lemmas on `RepresentOutput` -/

theorem foldl_append_eq (l : List String) :
    ∀ init : String, l.foldl (fun r s => r ++ s) init = init ++ String.join l := by
  induction l with
  | nil => intro init; simp [String.join]
  | cons s ss ih =>
    intro init
    have hjoin : String.join (s :: ss) = ss.foldl (fun r s => r ++ s) ("" ++ s) := rfl
    rw [List.foldl_cons, ih, hjoin, ih, String.empty_append, String.append_assoc]

theorem join_nil : String.join [] = "" := rfl

theorem join_cons (s : String) (ss : List String) :
    String.join (s :: ss) = s ++ String.join ss := by
  rw [String.join, List.foldl_cons, foldl_append_eq, String.empty_append]

/-- A per-event loop appends the lines of the events of the group, in order. -/
theorem perEvent_eq (record : Event → String) (group : List Event) :
    ∀ output : String,
      perEvent record output group = output ++ String.join (group.map record) := by
  induction group with
  | nil => intro output; simp [perEvent, join_nil]
  | cons e es ih =>
    intro output
    have h := ih (output ++ record e)
    simp only [perEvent, List.foldl_cons, List.map_cons, join_cons] at h ⊢
    rw [h, String.append_assoc]

/-- On a single non-empty group `RepresentOutput` runs the loop body once. -/
theorem RepresentOutput_single (first : Event) (rest : List Event) :
    RepresentOutput [first :: rest] = renderGroup "" (first :: rest) := by
  simp [RepresentOutput]

/-- On two non-empty groups `RepresentOutput` runs the loop body twice. -/
theorem RepresentOutput_pair (first : Event) (rest g : List Event) :
    RepresentOutput [first :: rest, g]
      = (renderGroup "" (first :: rest)).bind fun out => renderGroup out g := by
  simp [RepresentOutput]

/-- A single event is grouped alone. -/
theorem GroupEvents_singleton (e : Event) : GroupEvents [e] = [[e]] := rfl

/-- The events of a list share the key of its first event. -/
theorem homogeneous_of_first (first : Event) (rest : List Event) (t : String)
    (hT : ∀ e ∈ first :: rest, e.Typ = t)
    (hL : ∀ e ∈ first :: rest, e.Actor.Login = first.Actor.Login) :
    Homogeneous (first :: rest) :=
  fun a ha b hb => ⟨(hT a ha).trans (hT b hb).symm, (hL a ha).trans (hL b hb).symm⟩

/-! ## The output as a text of lines -/

theorem join_append (l₁ l₂ : List String) :
    String.join (l₁ ++ l₂) = String.join l₁ ++ String.join l₂ := by
  induction l₁ with
  | nil => simp [join_nil, String.empty_append]
  | cons s ss ih => rw [List.cons_append, join_cons, join_cons, ih, String.append_assoc]

theorem terminated_nil : terminated [] = "" := rfl

theorem terminated_append (l₁ l₂ : List String) :
    terminated (l₁ ++ l₂) = terminated l₁ ++ terminated l₂ := by
  simp [terminated, join_append]

theorem groupsText_nil : groupsText [] = "" := rfl

theorem groupsText_cons (g : List Event) (gs : List (List Event)) :
    groupsText (g :: gs) = terminated (groupLines g) ++ groupsText gs := by
  simp [groupsText, terminated_append]

theorem groupsText_append (gs₁ gs₂ : List (List Event)) :
    groupsText (gs₁ ++ gs₂) = groupsText gs₁ ++ groupsText gs₂ := by
  simp [groupsText, terminated_append]

/-- The loop body of `RepresentOutput` appends the terminated lines of the group. -/
theorem renderGroup_eq (output : String) (first : Event) (rest : List Event) :
    renderGroup output (first :: rest)
      = some (output ++ terminated (groupLines (first :: rest))) := by
  by_cases h1 : first.Typ = "CommitCommentEvent"
  · simp [renderGroup, groupLines, h1, perEventTypes, perEventLine, perEvent_eq,
      terminated, join_cons, join_nil, String.append_assoc, String.append_empty,
      Function.comp_def]
  by_cases h2 : first.Typ = "CreateEvent"
  · simp [renderGroup, groupLines, h2, perEventTypes, perEventLine, perEvent_eq,
      terminated, join_cons, join_nil, String.append_assoc, String.append_empty,
      Function.comp_def]
  by_cases h3 : first.Typ = "DeleteEvent"
  · simp [renderGroup, groupLines, h3, perEventTypes, perEventLine, perEvent_eq,
      terminated, join_cons, join_nil, String.append_assoc, String.append_empty,
      Function.comp_def]
  by_cases h4 : first.Typ = "ForkEvent"
  · simp [renderGroup, groupLines, h4, perEventTypes, perEventLine, perEvent_eq,
      terminated, join_cons, join_nil, String.append_assoc, String.append_empty,
      Function.comp_def]
  by_cases h5 : first.Typ = "GollumEvent"
  · simp [renderGroup, groupLines, h5, perEventTypes, perEventLine, perEvent_eq,
      terminated, join_cons, join_nil, String.append_assoc, String.append_empty,
      Function.comp_def]
  by_cases h6 : first.Typ = "IssueCommentEvent"
  · simp [renderGroup, groupLines, h6, perEventTypes, perEventLine, perEvent_eq,
      terminated, join_cons, join_nil, String.append_assoc, String.append_empty,
      Function.comp_def]
  by_cases h7 : first.Typ = "IssueEvent"
  · simp [renderGroup, groupLines, h7, perEventTypes, perEventLine, perEvent_eq,
      terminated, join_cons, join_nil, String.append_assoc, String.append_empty,
      Function.comp_def]
  by_cases h8 : first.Typ = "MemberEvent"
  · simp [renderGroup, groupLines, h8, perEventTypes, perEventLine, perEvent_eq,
      terminated, join_cons, join_nil, String.append_assoc, String.append_empty,
      Function.comp_def]
  by_cases h9 : first.Typ = "PublicEvent"
  · simp [renderGroup, groupLines, h9, perEventTypes, perEventLine, perEvent_eq,
      terminated, join_cons, join_nil, String.append_assoc, String.append_empty,
      Function.comp_def]
  by_cases h10 : first.Typ = "PullRequestEvent"
  · simp [renderGroup, groupLines, h10, perEventTypes, perEventLine, perEvent_eq,
      terminated, join_cons, join_nil, String.append_assoc, String.append_empty,
      Function.comp_def]
  by_cases h11 : first.Typ = "PullRequestReviewEvent"
  · simp [renderGroup, groupLines, h11, perEventTypes, perEventLine, perEvent_eq,
      terminated, join_cons, join_nil, String.append_assoc, String.append_empty,
      Function.comp_def]
  by_cases h12 : first.Typ = "PullRequestReviewCommentEvent"
  · simp [renderGroup, groupLines, h12, perEventTypes, perEventLine, perEvent_eq,
      terminated, join_cons, join_nil, String.append_assoc, String.append_empty,
      Function.comp_def]
  by_cases h13 : first.Typ = "PullRequestReviewThreadEvent"
  · simp [renderGroup, groupLines, h13, perEventTypes, perEventLine, perEvent_eq,
      terminated, join_cons, join_nil, String.append_assoc, String.append_empty,
      Function.comp_def]
  by_cases h14 : first.Typ = "PushEvent"
  · simp [renderGroup, groupLines, h14, perEventTypes, perEventLine, perEvent_eq,
      terminated, join_cons, join_nil, String.append_assoc, String.append_empty,
      Function.comp_def]
  by_cases h15 : first.Typ = "ReleaseEvent"
  · simp [renderGroup, groupLines, h15, perEventTypes, perEventLine, perEvent_eq,
      terminated, join_cons, join_nil, String.append_assoc, String.append_empty,
      Function.comp_def]
  by_cases h16 : first.Typ = "SponsorshipEvent"
  · simp [renderGroup, groupLines, h16, perEventTypes, perEventLine, perEvent_eq,
      terminated, join_cons, join_nil, String.append_assoc, String.append_empty,
      Function.comp_def]
  by_cases h17 : first.Typ = "WatchEvent"
  · simp [renderGroup, groupLines, h17, perEventTypes, perEventLine, perEvent_eq,
      terminated, join_cons, join_nil, String.append_assoc, String.append_empty,
      Function.comp_def]
  simp [renderGroup, groupLines, perEventTypes, terminated, join_nil, String.append_empty,
    h1, h2, h3, h4, h5, h6, h7, h8, h9, h10, h11, h12, h13, h14, h15, h16, h17]

/-- The loop of `RepresentOutput` over non-empty groups appends their terminated lines. -/
theorem foldlM_renderGroup (groups : List (List Event)) :
    ∀ output : String, (∀ g ∈ groups, g ≠ []) →
      groups.foldlM renderGroup output = some (output ++ groupsText groups) := by
  induction groups with
  | nil => intro output _; simp [groupsText_nil, String.append_empty]
  | cons g gs ih =>
    intro output hne
    obtain ⟨first, rest, rfl⟩ := List.exists_cons_of_ne_nil (hne g (by simp))
    rw [List.foldlM_cons, renderGroup_eq]
    simp only [Option.bind_eq_bind, Option.some_bind]
    rw [ih _ (fun g hg => hne g (List.mem_cons_of_mem _ hg)), groupsText_cons,
      String.append_assoc]

/-- On groups that are all non-empty `RepresentOutput` returns the text of their lines. -/
theorem RepresentOutput_eq_groupsText (groups : List (List Event)) (h0 : groups ≠ [])
    (hne : ∀ g ∈ groups, g ≠ []) :
    RepresentOutput groups = some (groupsText groups) := by
  obtain ⟨g0, gs, rfl⟩ := List.exists_cons_of_ne_nil h0
  have hg0 : g0.length ≠ 0 := fun h => hne g0 (by simp) (List.length_eq_zero.1 h)
  simp only [RepresentOutput, List.head?_cons, if_neg hg0]
  rw [foldlM_renderGroup _ "" hne, String.empty_append]

/-- The groups of a non-empty list are non-empty. -/
theorem GroupEvents_mem_ne_nil (events : List Event) (hne : events ≠ []) :
    ∀ g ∈ GroupEvents events, g ≠ [] := by
  intro g hg
  have inv := groupInv_foldl events ([], []) groupInv_init
  rcases List.mem_append.1 hg with hg | hg
  · exact inv.closed_nonempty g hg
  · simp only [List.mem_singleton] at hg
    subst hg
    exact run_ne_nil_foldl events ([], []) (Or.inr hne)

theorem GroupEvents_ne_nil (events : List Event) : GroupEvents events ≠ [] := by
  simp [GroupEvents]

/-- The output of the pipeline on a non-empty list is the text of the lines of its
groups. -/
theorem RepresentOutput_GroupEvents (events : List Event) (hne : events ≠ []) :
    RepresentOutput (GroupEvents events) = some (groupsText (GroupEvents events)) :=
  RepresentOutput_eq_groupsText _ (GroupEvents_ne_nil events)
    (GroupEvents_mem_ne_nil events hne)

/-- The groups of any list are homogeneous. -/
theorem GroupEvents_mem_homogeneous (events : List Event) :
    ∀ g ∈ GroupEvents events, Homogeneous g :=
  (groupInv_foldl events ([], []) groupInv_init).homogeneous

/-- A text of terminated lines is empty or ends with a newline. -/
theorem terminated_ends (lines : List String) :
    terminated lines = "" ∨ (terminated lines).data.getLast? = some '\n' := by
  rcases List.eq_nil_or_concat lines with rfl | ⟨ys, l, rfl⟩
  · exact Or.inl rfl
  · right
    have h : (ys.concat l) = ys ++ [l] := by simp
    rw [h, terminated_append]
    simp [terminated, join_cons, join_nil, String.append_empty, String.data_append,
      List.getLast?_append]

/-- Lines computed group by group with one line function are the lines of the events. -/
theorem flatten_map_lines (f : Event → String) (gs : List (List Event))
    (h : ∀ g ∈ gs, groupLines g = g.map f) :
    (gs.map groupLines).flatten = gs.flatten.map f := by
  induction gs with
  | nil => rfl
  | cons g gs ih =>
    simp only [List.map_cons, List.flatten_cons, List.map_append]
    rw [h g (by simp), ih (fun g hg => h g (List.mem_cons_of_mem _ hg))]

/-- A group whose first event has an unrecognized type has no line. -/
theorem groupLines_unrecognized (first : Event) (rest : List Event)
    (h : first.Typ ∉ recognizedTypes) : groupLines (first :: rest) = [] := by
  simp only [recognizedTypes, List.mem_cons, List.mem_singleton, List.not_mem_nil, or_false,
    not_or] at h
  simp [groupLines, perEventTypes, h]

/-- A homogeneous group of a per-event type has the line of each of its events. -/
theorem groupLines_perEvent (g : List Event) (hom : Homogeneous g)
    (hT : ∀ e ∈ g, e.Typ ∈ perEventTypes) :
    groupLines g = g.map fun e => perEventLine e.Typ e := by
  cases g with
  | nil => rfl
  | cons first rest =>
    have h1 : first.Typ ∈ perEventTypes := hT first (by simp)
    have hagg : first.Typ ≠ "CommitCommentEvent" ∧ first.Typ ≠ "GollumEvent"
        ∧ first.Typ ≠ "PushEvent" := by
      refine ⟨?_, ?_, ?_⟩ <;> (intro h; rw [h] at h1; revert h1; decide)
    simp only [groupLines, List.head?_cons, if_neg hagg.1, if_neg hagg.2.1, if_neg hagg.2.2,
      if_pos h1]
    refine List.map_congr_left fun e he => ?_
    rw [(hom first (by simp) e he).1]

/-! ## Splitting the input of the pipeline -/

/-- Groups that are already closed are carried along by an iteration. -/
theorem groupStep_prefix (G gs : List (List Event)) (cur : List Event) (e : Event) :
    groupStep (G ++ gs, cur) e
      = (G ++ (groupStep (gs, cur) e).1, (groupStep (gs, cur) e).2) := by
  rcases run_cases cur with rfl | ⟨ys, l, rfl⟩
  · simp [groupStep_nil]
  · by_cases h : e.Typ ≠ l.Typ ∨ e.Actor.Login ≠ l.Actor.Login
    · simp [groupStep_differ _ ys l e h]
    · simp [groupStep_same _ ys l e ((sameKey_iff_not_differ e l).2 h)]

/-- Groups that are already closed are carried along by the loop. -/
theorem foldl_groupStep_prefix (events : List Event) :
    ∀ (G gs : List (List Event)) (cur : List Event),
      events.foldl groupStep (G ++ gs, cur)
        = (G ++ (events.foldl groupStep (gs, cur)).1,
            (events.foldl groupStep (gs, cur)).2) := by
  induction events with
  | nil => intro G gs cur; rfl
  | cons e es ih =>
    intro G gs cur
    rw [List.foldl_cons, List.foldl_cons, groupStep_prefix, ih]

/-- The current run ends with the event of the last iteration. -/
theorem groupStep_getLast (st : List (List Event) × List Event) (e : Event) :
    (groupStep st e).2.getLast? = some e := by
  obtain ⟨gs, cur⟩ := st
  rcases run_cases cur with rfl | ⟨ys, l, rfl⟩
  · simp [groupStep_nil]
  · by_cases h : e.Typ ≠ l.Typ ∨ e.Actor.Login ≠ l.Actor.Login
    · simp [groupStep_differ _ ys l e h]
    · simp [groupStep_same _ ys l e ((sameKey_iff_not_differ e l).2 h)]

/-- After a loop that ends with the event `a`, the current run ends with `a`. -/
theorem foldl_groupStep_getLast (xs : List Event) (a : Event)
    (st : List (List Event) × List Event) :
    ((xs ++ [a]).foldl groupStep st).2.getLast? = some a := by
  rw [List.foldl_append, List.foldl_cons, List.foldl_nil, groupStep_getLast]

/-- In a mode that is not the aggregate mode, the lines of two groups that start with
events of one type are the lines of the two groups put together. -/
theorem groupLines_append (c0 d0 : Event) (cs ds : List Event) (hT : d0.Typ = c0.Typ)
    (hagg : c0.Typ ∉ aggregateTypes) :
    groupLines ((c0 :: cs) ++ (d0 :: ds))
      = groupLines (c0 :: cs) ++ groupLines (d0 :: ds) := by
  simp only [aggregateTypes, List.mem_cons, List.mem_singleton, List.not_mem_nil, or_false,
    not_or] at hagg
  simp only [groupLines, List.cons_append, List.head?_cons, hT, if_neg hagg.1,
    if_neg hagg.2.1, if_neg hagg.2.2]
  split_ifs
  · simp
  · simp

/-- The loop started on the run `c ++ d`, where `c` and `d` start with events of one type
that is not aggregated, produces the lines of `c` followed by the lines that the loop
started on the run `d` produces. -/
theorem foldl_groupStep_merge (gs : List (List Event)) (c0 : Event) (cs : List Event)
    (hagg : c0.Typ ∉ aggregateTypes) (zs : List Event) :
    ∀ (d0 : Event) (ds : List Event), d0.Typ = c0.Typ →
      groupsText ((zs.foldl groupStep (gs, (c0 :: cs) ++ (d0 :: ds))).1
          ++ [(zs.foldl groupStep (gs, (c0 :: cs) ++ (d0 :: ds))).2])
        = groupsText (gs ++ [c0 :: cs])
          ++ groupsText ((zs.foldl groupStep ([], d0 :: ds)).1
              ++ [(zs.foldl groupStep ([], d0 :: ds)).2]) := by
  induction zs with
  | nil =>
    intro d0 ds hT
    simp only [List.foldl_nil, List.nil_append, groupsText_append, groupsText_cons,
      groupsText_nil, String.append_empty, groupLines_append c0 d0 cs ds hT hagg,
      terminated_append, String.append_assoc]
  | cons z zs ih =>
    intro d0 ds hT
    rcases run_cases (d0 :: ds) with h | ⟨ys, l, h⟩
    · exact absurd h (by simp)
    · by_cases hz : z.Typ ≠ l.Typ ∨ z.Actor.Login ≠ l.Actor.Login
      · have h₁ : groupStep (gs, (c0 :: cs) ++ (d0 :: ds)) z
            = ((gs ++ [(c0 :: cs) ++ (d0 :: ds)]) ++ [], [z]) := by
          rw [h, ← List.append_assoc, groupStep_differ gs _ l z hz, List.append_nil]
        have h₂ : groupStep ([], d0 :: ds) z = ([d0 :: ds] ++ [], [z]) := by
          rw [h, groupStep_differ [] _ l z hz]; rfl
        rw [List.foldl_cons, List.foldl_cons, h₁, h₂, foldl_groupStep_prefix,
          foldl_groupStep_prefix zs [d0 :: ds]]
        simp only [List.append_assoc, groupsText_append, groupsText_cons, groupsText_nil,
          String.append_empty, groupLines_append c0 d0 cs ds hT hagg, terminated_append,
          String.append_assoc, List.singleton_append]
      · have hzl : sameKey z l := (sameKey_iff_not_differ z l).2 hz
        have h₁ : groupStep (gs, (c0 :: cs) ++ (d0 :: ds)) z
            = (gs, (c0 :: cs) ++ (d0 :: (ds ++ [z]))) := by
          have e₁ : (c0 :: cs) ++ (d0 :: ds) = ((c0 :: cs) ++ ys) ++ [l] := by
            rw [h, List.append_assoc]
          rw [e₁, groupStep_same gs _ l z hzl, ← e₁]
          simp
        have h₂ : groupStep ([], d0 :: ds) z = ([], d0 :: (ds ++ [z])) := by
          rw [h, groupStep_same [] _ l z hzl, ← h]; rfl
        rw [List.foldl_cons, List.foldl_cons, h₁, h₂]
        exact ih d0 (ds ++ [z]) hT

/-- The text of the lines of the groups of `xs ++ ys` is the text for `xs` followed by
the text for `ys`, unless the last event of `xs` and the first event of `ys` have one
`(Type, Actor.Login)` pair of an aggregated type. -/
theorem groupsText_GroupEvents_append (xs ys : List Event)
    (hb : ∀ a ∈ xs.getLast?, ∀ b ∈ ys.head?, sameKey a b → a.Typ ∉ aggregateTypes) :
    groupsText (GroupEvents (xs ++ ys))
      = groupsText (GroupEvents xs) ++ groupsText (GroupEvents ys) := by
  have hnil : groupsText (GroupEvents []) = "" := rfl
  rcases run_cases xs with rfl | ⟨xs', a, rfl⟩
  · rw [List.nil_append, hnil, String.empty_append]
  cases ys with
  | nil => rw [List.append_nil, hnil, String.append_empty]
  | cons y ys' =>
    have hlast := foldl_groupStep_getLast xs' a ([], [])
    have inv := groupInv_foldl (xs' ++ [a]) ([], []) groupInv_init
    have hy : GroupEvents (y :: ys')
        = (ys'.foldl groupStep ([], [y])).1 ++ [(ys'.foldl groupStep ([], [y])).2] := rfl
    generalize hst : (xs' ++ [a]).foldl groupStep ([], []) = st at hlast inv
    obtain ⟨gs, cur⟩ := st
    have hx : GroupEvents (xs' ++ [a]) = gs ++ [cur] := by
      simp only [GroupEvents, hst]
    obtain ⟨cs', hcur⟩ := List.getLast?_eq_some_iff.1 hlast
    simp only at hcur
    have hxy : GroupEvents (xs' ++ [a] ++ y :: ys')
        = ((y :: ys').foldl groupStep (gs, cur)).1
          ++ [((y :: ys').foldl groupStep (gs, cur)).2] := by
      simp only [GroupEvents, List.foldl_append, hst]
    rw [hxy, hx, hy, List.foldl_cons]
    by_cases h : y.Typ ≠ a.Typ ∨ y.Actor.Login ≠ a.Actor.Login
    · have h₁ : groupStep (gs, cur) y = ((gs ++ [cur]) ++ [], [y]) := by
        rw [hcur, groupStep_differ gs cs' a y h, List.append_nil]
      rw [h₁, foldl_groupStep_prefix]
      simp only [List.append_assoc, groupsText_append, String.append_assoc]
    · have hya : sameKey y a := (sameKey_iff_not_differ y a).2 h
      have hagg : a.Typ ∉ aggregateTypes :=
        hb a (by simp) y (by simp) (sameKey_symm hya)
      have hcurne : cur ≠ [] := by rw [hcur]; simp
      obtain ⟨c0, cs, hc⟩ := List.exists_cons_of_ne_nil hcurne
      have hhom : Homogeneous cur := inv.homogeneous cur (by simp)
      have hc0a : sameKey c0 a :=
        hhom c0 (by rw [hc]; simp) a (by rw [hcur]; simp)
      have h₁ : groupStep (gs, cur) y = (gs, (c0 :: cs) ++ [y]) := by
        rw [hcur, groupStep_same gs cs' a y hya, ← hcur, hc]
      rw [h₁, hc]
      exact foldl_groupStep_merge gs c0 cs (by rw [hc0a.1]; exact hagg) ys' y []
        (hya.1.trans hc0a.1.symm)

theorem not_aggregate_of_unrecognized (t : String) (h : t ∉ recognizedTypes) :
    t ∉ aggregateTypes := by
  intro hagg
  apply h
  simp only [aggregateTypes, List.mem_cons, List.mem_singleton, List.not_mem_nil,
    or_false] at hagg
  rcases hagg with rfl | rfl | rfl <;> decide

/-- An event of an unrecognized type in the middle of the input adds nothing to the text
of the lines before it and after it. -/
theorem groupsText_unrecognized_between (pre post : List Event) (u : Event)
    (hu : u.Typ ∉ recognizedTypes) :
    groupsText (GroupEvents (pre ++ [u] ++ post))
      = groupsText (GroupEvents pre) ++ groupsText (GroupEvents post) := by
  have hagg := not_aggregate_of_unrecognized u.Typ hu
  have hu0 : groupsText (GroupEvents [u]) = "" := by
    rw [GroupEvents_singleton, groupsText_cons, groupLines_unrecognized u [] hu,
      groupsText_nil, terminated_nil, String.append_empty]
  rw [groupsText_GroupEvents_append (pre ++ [u]) post, groupsText_GroupEvents_append pre [u],
    hu0, String.append_empty]
  · intro a _ b hb hab
    simp only [List.head?_cons, Option.mem_def, Option.some.injEq] at hb
    subst hb
    rw [hab.1]
    exact hagg
  · intro a ha b _ _
    simp only [List.getLast?_concat, Option.mem_def, Option.some.injEq] at ha
    subst ha
    exact hagg

/-- The rendered lines of a list are the text of the lines of its groups. -/
theorem renderedLines_eq (events : List Event) :
    renderedLines events = some (groupsText (GroupEvents events)) := by
  by_cases h : events = []
  · subst h; rfl
  · rw [renderedLines, if_neg h, RepresentOutput_GroupEvents events h]

/-! ## Counting the groups -/

theorem breaks_cons_cons (a b : Event) (rest : List Event) :
    breaks (a :: b :: rest)
      = (if a.Typ ≠ b.Typ ∨ a.Actor.Login ≠ b.Actor.Login then 1 else 0)
        + breaks (b :: rest) := by
  simp only [breaks, List.tail_cons, List.zip_cons_cons, List.countP_cons, decide_eq_true_eq]
  omega

theorem breaks_concat (ys : List Event) (l e : Event) :
    breaks (ys ++ [l, e])
      = breaks (ys ++ [l])
        + (if l.Typ ≠ e.Typ ∨ l.Actor.Login ≠ e.Actor.Login then 1 else 0) := by
  induction ys with
  | nil =>
    have h : breaks [l] = 0 := rfl
    have h' : breaks [e] = 0 := rfl
    rw [List.nil_append, List.nil_append, breaks_cons_cons, h, h']
    omega
  | cons a ys ih =>
    cases ys with
    | nil =>
      simp only [List.cons_append, List.nil_append] at ih ⊢
      rw [breaks_cons_cons a l [e], breaks_cons_cons a l [], ih]
      omega
    | cons y ys' =>
      simp only [List.cons_append] at ih ⊢
      rw [breaks_cons_cons a y, breaks_cons_cons a y, ih]
      omega

theorem breaks_le (events : List Event) : breaks events ≤ events.length - 1 := by
  refine (List.countP_le_length _).trans ?_
  simp [List.length_zip]

/-- The number of closed groups after an iteration. -/
theorem groupStep_length (gs : List (List Event)) (ys : List Event) (l e : Event) :
    (groupStep (gs, ys ++ [l]) e).1.length
      = gs.length + (if l.Typ ≠ e.Typ ∨ l.Actor.Login ≠ e.Actor.Login then 1 else 0) := by
  by_cases h : e.Typ ≠ l.Typ ∨ e.Actor.Login ≠ l.Actor.Login
  · have h' : l.Typ ≠ e.Typ ∨ l.Actor.Login ≠ e.Actor.Login := h.imp Ne.symm Ne.symm
    simp [groupStep_differ gs ys l e h, if_pos h']
  · have h' : ¬ (l.Typ ≠ e.Typ ∨ l.Actor.Login ≠ e.Actor.Login) :=
      fun h' => h (h'.imp Ne.symm Ne.symm)
    simp only [groupStep_same gs ys l e ((sameKey_iff_not_differ e l).2 h), if_neg h',
      Nat.add_zero]

/-- The number of closed groups is the number of breaks among the scanned events. -/
theorem foldl_groupStep_length (events : List Event) :
    ∀ (st : List (List Event) × List Event) (scanned : List Event) (a : Event),
      st.2.getLast? = some a → st.1.length = breaks (scanned ++ [a]) →
      (events.foldl groupStep st).1.length = breaks (scanned ++ [a] ++ events) := by
  induction events with
  | nil => intro st scanned a _ h; simpa using h
  | cons e es ih =>
    intro st scanned a hlast hlen
    obtain ⟨gs, cur⟩ := st
    obtain ⟨ys, hcur⟩ := List.getLast?_eq_some_iff.1 hlast
    simp only at hcur hlen
    subst hcur
    have h := ih (groupStep (gs, ys ++ [a]) e) (scanned ++ [a]) e (groupStep_getLast _ e)
      (by rw [groupStep_length, hlen, List.append_assoc]; exact (breaks_concat _ a e).symm)
    rw [List.foldl_cons, h]
    simp

/-- The number of groups of a non-empty list. -/
theorem GroupEvents_length (first : Event) (rest : List Event) :
    (GroupEvents (first :: rest)).length = 1 + breaks (first :: rest) := by
  have h := foldl_groupStep_length rest ([], [first]) [] first rfl rfl
  have hfold : (first :: rest).foldl groupStep ([], []) = rest.foldl groupStep ([], [first]) :=
    rfl
  simp only [GroupEvents, hfold, List.length_append, List.length_singleton, h]
  simp [Nat.add_comm]

/-! ## Index expressions -/

/-- The index expression of an iteration of `GroupEvents` is never out of range. -/
theorem groupStepIdx_eq (st : List (List Event) × List Event) (e : Event) :
    groupStepIdx st e = some (groupStep st e) := by
  obtain ⟨gs, cur⟩ := st
  rcases run_cases cur with rfl | ⟨ys, l, rfl⟩
  · simp [groupStepIdx, groupStep_nil]
  · by_cases h : e.Typ ≠ l.Typ ∨ e.Actor.Login ≠ l.Actor.Login
    · simp [groupStepIdx, groupStep_differ gs ys l e h, h]
    · rw [groupStep_same gs ys l e ((sameKey_iff_not_differ e l).2 h)]
      simp [groupStepIdx, h]

theorem foldlM_groupStepIdx (events : List Event) :
    ∀ st, events.foldlM groupStepIdx st = some (events.foldl groupStep st) := by
  induction events with
  | nil => intro st; rfl
  | cons e es ih =>
    intro st
    rw [List.foldlM_cons, groupStepIdx_eq]
    simp only [Option.bind_eq_bind, Option.some_bind, List.foldl_cons]
    exact ih _

/-! ## Sorted slices -/

theorem isSortedBy_less_iff (events : List Event) :
    isSortedBy less events = true
      ↔ events.Pairwise fun a b => a.CreatedAt ≤ b.CreatedAt := by
  induction events with
  | nil => simp [isSortedBy]
  | cons a rest ih =>
    cases rest with
    | nil => simp [isSortedBy]
    | cons b rest =>
      rw [isSortedBy, Bool.and_eq_true, ih, List.pairwise_cons (a := a)]
      simp only [less, Bool.not_eq_true', decide_eq_false_iff_not, not_lt]
      constructor
      · rintro ⟨hab, hp⟩
        refine ⟨?_, hp⟩
        intro c hc
        rcases List.mem_cons.1 hc with rfl | hc
        · exact hab
        · exact hab.trans ((List.pairwise_cons.1 hp).1 c hc)
      · rintro ⟨ha, hp⟩
        exact ⟨ha b (by simp), hp⟩

/-- The comparison of the sort step meets the requirement of `sort.Slice`. -/
theorem less_transitiveOrdering : TransitiveOrdering less := by
  constructor
  · intro a b c hab hbc
    simp only [less, decide_eq_true_eq] at *
    exact hab.trans hbc
  · intro a b c hab hbc
    simp only [less, decide_eq_false_iff_not, not_lt] at *
    exact hbc.trans hab

/-- Every slice has a content that `sort.Slice` may leave. -/
theorem SortSlice_exists (events : List Event) : ∃ sorted, SortSlice less events sorted := by
  refine ⟨events.mergeSort (fun a b => decide (a.CreatedAt ≤ b.CreatedAt)),
    List.mergeSort_perm _ _, fun _ => ?_⟩
  rw [isSortedBy_less_iff]
  have h := @List.sorted_mergeSort Event
    (fun a b : Event => decide (a.CreatedAt ≤ b.CreatedAt))
    (by intro a b c hab hbc; simp only [decide_eq_true_eq] at *; exact hab.trans hbc)
    (by intro a b; simp only [Bool.or_eq_true, decide_eq_true_eq]; exact le_total _ _)
    events
  exact h.imp (by intro a b hab; simpa using hab)

/-- A list of lines is empty or ends with some line. -/
theorem run_cases_string (lines : List String) :
    lines = [] ∨ ∃ ys l, lines = ys ++ [l] := by
  rcases List.eq_nil_or_concat lines with h | ⟨ys, l, h⟩
  · exact Or.inl h
  · exact Or.inr ⟨ys, l, by simpa using h⟩

/-! ## Insertion sort keeps the order of equal timestamps -/

/-- The comparison of two neighbours of a slice. -/
theorem getElem?_adjacent (l₁ l₂ : List Event) (p x : Event) :
    (l₁ ++ p :: x :: l₂)[l₁.length]? = some p ∧
      (l₁ ++ p :: x :: l₂)[l₁.length + 1]? = some x := by
  constructor
  · rw [List.getElem?_append_right (Nat.le_refl _)]; simp
  · rw [List.getElem?_append_right (Nat.le_succ _)]; simp

/-- The comparison of two neighbours of a slice. -/
theorem lessAt_adjacent (l₁ l₂ : List Event) (p x : Event) :
    lessAt (l₁ ++ p :: x :: l₂) (l₁.length + 1) l₁.length = less x p := by
  simp only [lessAt, (getElem?_adjacent l₁ l₂ p x).1, (getElem?_adjacent l₁ l₂ p x).2]

/-- The swap of two neighbours of a slice. -/
theorem swapAt_adjacent (l₁ l₂ : List Event) (p x : Event) :
    swapAt (l₁ ++ p :: x :: l₂) (l₁.length + 1) l₁.length = l₁ ++ x :: p :: l₂ := by
  simp only [swapAt, (getElem?_adjacent l₁ l₂ p x).1, (getElem?_adjacent l₁ l₂ p x).2]
  rw [List.set_append_right _ _ (Nat.le_succ _), List.set_append_right _ _ (Nat.le_refl _)]
  simp

/-- A slice with elements at `j` and `j + 1` splits around them. -/
theorem adjacent_split (data : List Event) (j : Nat) (p x : Event)
    (hp : data[j]? = some p) (hx : data[j + 1]? = some x) :
    ∃ l₁ l₂, data = l₁ ++ p :: x :: l₂ ∧ l₁.length = j := by
  induction data generalizing j with
  | nil => simp at hp
  | cons d ds ih =>
    cases j with
    | zero =>
      cases ds with
      | nil => simp at hx
      | cons d' ds' =>
        simp only [List.getElem?_cons_zero, Option.some.injEq] at hp
        simp only [List.getElem?_cons_succ, List.getElem?_cons_zero, Option.some.injEq] at hx
        subst hp; subst hx
        exact ⟨[], ds', rfl, rfl⟩
    | succ j =>
      simp only [List.getElem?_cons_succ] at hp hx
      obtain ⟨l₁, l₂, h, hl⟩ := ih j hp hx
      exact ⟨d :: l₁, l₂, by rw [h]; rfl, by simp [hl]⟩

/-- The swap of `insertionSort_func` exchanges two neighbours, the right one being
created before the left one. -/
theorem swapAt_of_lessAt (data : List Event) (j : Nat)
    (h : lessAt data (j + 1) j = true) :
    ∃ l₁ l₂ p x, data = l₁ ++ p :: x :: l₂ ∧
      swapAt data (j + 1) j = l₁ ++ x :: p :: l₂ ∧ x.CreatedAt < p.CreatedAt := by
  have h' := h
  unfold lessAt at h'
  cases hx : data[j + 1]? with
  | none => rw [hx] at h'; simp at h'
  | some x =>
    cases hp : data[j]? with
    | none => rw [hx, hp] at h'; simp at h'
    | some p =>
      obtain ⟨l₁, l₂, hd, hl⟩ := adjacent_split data j p x hp hx
      subst hd; subst hl
      rw [lessAt_adjacent] at h
      exact ⟨l₁, l₂, p, x, rfl, swapAt_adjacent l₁ l₂ p x, by simpa [less] using h⟩

/-- Exchanging two neighbours created at different instants changes neither the events
created at an instant, in their order, nor the elements of the slice. -/
theorem filter_swap (l₁ l₂ : List Event) (p x : Event) (h : x.CreatedAt < p.CreatedAt)
    (t : Int) :
    (l₁ ++ x :: p :: l₂).filter (fun e => decide (e.CreatedAt = t))
      = (l₁ ++ p :: x :: l₂).filter (fun e => decide (e.CreatedAt = t)) := by
  simp only [List.filter_append, List.filter_cons]
  by_cases hx : x.CreatedAt = t
  · have hp : ¬ p.CreatedAt = t := by omega
    simp [hx, hp]
  · simp [hx]

/-- The inner loop of `insertionSort_func` keeps the events created at an instant in their
order, and keeps the elements of the slice. -/
theorem insertionInner_keeps (a : Nat) (t : Int) (j : Nat) :
    ∀ data : List Event,
      (insertionInner a j data).filter (fun e => decide (e.CreatedAt = t))
          = data.filter (fun e => decide (e.CreatedAt = t)) ∧
        (insertionInner a j data).Perm data := by
  induction j with
  | zero => intro data; exact ⟨rfl, List.Perm.refl _⟩
  | succ j ih =>
    intro data
    rw [insertionInner]
    split_ifs with hc
    · obtain ⟨l₁, l₂, p, x, hd, hs, hlt⟩ := swapAt_of_lessAt data j hc.2
      have h := ih (swapAt data (j + 1) j)
      refine ⟨h.1.trans ?_, h.2.trans ?_⟩
      · rw [hs, hd]; exact filter_swap l₁ l₂ p x hlt t
      · rw [hs, hd]; exact List.Perm.append_left _ (List.Perm.swap _ _ _)
    · exact ⟨rfl, List.Perm.refl _⟩

/-- The function `insertionSort_func` keeps the events created at an instant in their
order, and keeps the elements of the slice. -/
theorem insertionSortFunc_keeps (t : Int) (data : List Event) (a b : Nat) :
    (insertionSortFunc data a b).filter (fun e => decide (e.CreatedAt = t))
        = data.filter (fun e => decide (e.CreatedAt = t)) ∧
      (insertionSortFunc data a b).Perm data := by
  unfold insertionSortFunc
  generalize List.range' (a + 1) (b - (a + 1)) = indices
  induction indices generalizing data with
  | nil => exact ⟨rfl, List.Perm.refl _⟩
  | cons i is ih =>
    rw [List.foldl_cons]
    have h₁ := ih (insertionInner a i data)
    have h₂ := insertionInner_keeps a t i data
    exact ⟨h₁.1.trans h₂.1, h₁.2.trans h₂.2⟩

/-- The inner loop of `insertionSort_func` on the slice `l₁ ++ x :: mid ++ rest`, started
at `x`, where `l₁` and `mid` are in order, no event of `mid` is created before an event of
`l₁`, and `x` is created before every event of `mid`: it puts `l₁ ++ x :: mid` in order and
leaves `rest`. -/
theorem insertionInner_sorted (rest : List Event) (x : Event) (j : Nat) :
    ∀ l₁ mid : List Event, l₁.length = j →
      l₁.Pairwise (fun a b => a.CreatedAt ≤ b.CreatedAt) →
      mid.Pairwise (fun a b => a.CreatedAt ≤ b.CreatedAt) →
      (∀ p ∈ l₁, ∀ m ∈ mid, p.CreatedAt ≤ m.CreatedAt) →
      (∀ m ∈ mid, x.CreatedAt < m.CreatedAt) →
      ∃ s, insertionInner 0 j (l₁ ++ x :: mid ++ rest) = s ++ rest ∧
        s.length = j + 1 + mid.length ∧
        s.Pairwise (fun a b => a.CreatedAt ≤ b.CreatedAt) := by
  induction j with
  | zero =>
    intro l₁ mid hl _ hmid _ hx
    have h0 : l₁ = [] := List.length_eq_zero.1 hl
    subst h0
    refine ⟨x :: mid, rfl, by simp [Nat.add_comm], ?_⟩
    exact List.pairwise_cons.2 ⟨fun m hm => le_of_lt (hx m hm), hmid⟩
  | succ j ih =>
    intro l₁ mid hl hl₁ hmid hlm hx
    rcases run_cases l₁ with h0 | ⟨l₁', p, h1⟩
    · subst h0; simp at hl
    subst h1
    have hlen : l₁'.length = j := by simpa using hl
    have hdata : l₁' ++ [p] ++ x :: mid ++ rest = l₁' ++ p :: x :: (mid ++ rest) := by simp
    have hl₁' := List.pairwise_append.1 hl₁
    rw [hdata, insertionInner, ← hlen, lessAt_adjacent, swapAt_adjacent]
    by_cases hc : less x p = true
    · rw [if_pos ⟨Nat.succ_pos _, hc⟩]
      have hxp : x.CreatedAt < p.CreatedAt := by simpa [less] using hc
      have h := ih l₁' (p :: mid) hlen hl₁'.1
        (List.pairwise_cons.2 ⟨fun m hm => hlm p (by simp) m hm, hmid⟩)
        (by
          intro q hq m hm
          rcases List.mem_cons.1 hm with rfl | hm
          · exact hl₁'.2.2 q hq _ (by simp)
          · exact hlm q (by simp [hq]) m hm)
        (by
          intro m hm
          rcases List.mem_cons.1 hm with rfl | hm
          · exact hxp
          · exact hx m hm)
      obtain ⟨s, hs, hsl, hsp⟩ := h
      refine ⟨s, ?_, ?_, hsp⟩
      · rw [← hs, hlen]; simp
      · rw [hsl]; simp; omega
    · rw [if_neg (fun h => hc h.2)]
      have hpx : p.CreatedAt ≤ x.CreatedAt := by
        simp only [less, decide_eq_true_eq, not_lt] at hc
        exact hc
      refine ⟨l₁' ++ p :: x :: mid, by simp, by simp; omega, ?_⟩
      refine List.pairwise_append.2 ⟨hl₁'.1, ?_, ?_⟩
      · refine List.pairwise_cons.2 ⟨?_, List.pairwise_cons.2
          ⟨fun m hm => le_of_lt (hx m hm), hmid⟩⟩
        intro m hm
        rcases List.mem_cons.1 hm with rfl | hm
        · exact hpx
        · exact hlm p (by simp) m hm
      · intro q hq m hm
        have hqp : q.CreatedAt ≤ p.CreatedAt := hl₁'.2.2 q hq p (by simp)
        rcases List.mem_cons.1 hm with rfl | hm
        · exact hqp
        rcases List.mem_cons.1 hm with rfl | hm
        · exact hqp.trans hpx
        · exact hlm q (by simp [hq]) m hm

/-- The outer loop of `insertionSort_func`, started after a prefix that is in order, puts
the slice in order. -/
theorem insertionOuter_sorted (rest : List Event) :
    ∀ s : List Event, s.Pairwise (fun a b => a.CreatedAt ≤ b.CreatedAt) →
      ((List.range' s.length rest.length).foldl (fun data i => insertionInner 0 i data)
        (s ++ rest)).Pairwise (fun a b => a.CreatedAt ≤ b.CreatedAt) := by
  induction rest with
  | nil => intro s hs; simpa using hs
  | cons x rest ih =>
    intro s hs
    obtain ⟨s', h₁, h₂, h₃⟩ := insertionInner_sorted rest x s.length s [] rfl hs
      List.Pairwise.nil (by simp) (by simp)
    have h := ih s' h₃
    have h₁' : insertionInner 0 s.length (s ++ x :: rest) = s' ++ rest := by
      rw [← h₁]; simp
    rw [h₂] at h
    simp only [List.length_cons, List.range'_succ, List.foldl_cons]
    simp only [List.length_nil, Nat.add_zero] at h
    rw [h₁']
    exact h

/-- The function `insertionSort_func` on a whole slice puts it in order. -/
theorem insertionSortFunc_sorted (events : List Event) :
    (insertionSortFunc events 0 events.length).Pairwise
      (fun a b => a.CreatedAt ≤ b.CreatedAt) := by
  cases events with
  | nil => simp [insertionSortFunc]
  | cons e es =>
    have h := insertionOuter_sorted es [e] (List.pairwise_singleton _ _)
    simpa [insertionSortFunc] using h

/-- On a slice of at most 12 events `sort.Slice` is `insertionSort_func`. -/
theorem sortSlice_small (events : List Event) (h : events.length ≤ 12) :
    sortSlice events = some (insertionSortFunc events 0 events.length) := by
  simp [sortSlice, pdqsortFunc, h]

/-! ## Properties of `GroupEvents` -/

/-- C1 (partition invariant): concatenating the groups returned by `GroupEvents events`,
in order, gives back exactly `events`, for every event list, the empty one included. -/
theorem GroupEvents_flatten (events : List Event) :
    (GroupEvents events).flatten = events := by
  have h := foldl_groupStep_flatten events ([], [])
  simpa [GroupEvents] using h

/-- C2 (group homogeneity): any two events of one group returned by `GroupEvents` agree
on `Type` and on `Actor.Login`. -/
theorem GroupEvents_homogeneous (events : List Event) :
    ∀ g ∈ GroupEvents events, ∀ a ∈ g, ∀ b ∈ g,
      a.Typ = b.Typ ∧ a.Actor.Login = b.Actor.Login :=
  fun g hg a ha b hb =>
    (groupInv_foldl events ([], []) groupInv_init).homogeneous g hg a ha b hb

/-- C3 (group maximality): any two consecutive groups `g`, `h` of the result of
`GroupEvents` are non-empty and every event of `g` differs from every event of `h` in
`Type` or in `Actor.Login`. -/
theorem GroupEvents_adjacent_differ (events : List Event) :
    List.Chain' (fun g h => g ≠ [] ∧ h ≠ [] ∧
      ∀ a ∈ g, ∀ b ∈ h, a.Typ ≠ b.Typ ∨ a.Actor.Login ≠ b.Actor.Login)
      (GroupEvents events) :=
  (groupInv_foldl events ([], []) groupInv_init).separated

/-- C4 (non-emptiness with sentinel): every group of the result of `GroupEvents` on a
non-empty list is non-empty, and the result on the empty list is the single empty
group. -/
theorem GroupEvents_nonempty_groups (events : List Event) :
    (events ≠ [] → ∀ g ∈ GroupEvents events, g ≠ []) ∧
      (events = [] → GroupEvents events = [[]]) := by
  constructor
  · intro hne g hg
    have inv := groupInv_foldl events ([], []) groupInv_init
    rcases List.mem_append.1 hg with hg | hg
    · exact inv.closed_nonempty g hg
    · simp only [List.mem_singleton] at hg
      subst hg
      exact run_ne_nil_foldl events ([], []) (Or.inr hne)
  · rintro rfl
    rfl

/-- Witness of C2: the two pushes of `alice` form the first group of a three-event
list, and they agree on type and login. -/
theorem GroupEvents_homogeneous_witness :
    [alicePush, alicePush2] ∈ GroupEvents [alicePush, alicePush2, carolFork] ∧
      alicePush ∈ [alicePush, alicePush2] ∧ alicePush2 ∈ [alicePush, alicePush2] ∧
      alicePush.Typ = alicePush2.Typ ∧ alicePush.Actor.Login = alicePush2.Actor.Login :=
  ⟨by decide, by decide, by decide,
    GroupEvents_homogeneous [alicePush, alicePush2, carolFork] [alicePush, alicePush2]
      (by decide) alicePush (by decide) alicePush2 (by decide)⟩

/-- Witness of C4: the groups of a three-event list are non-empty. -/
theorem GroupEvents_nonempty_groups_witness :
    [alicePush, alicePush2, carolFork] ≠ [] ∧
      [carolFork] ∈ GroupEvents [alicePush, alicePush2, carolFork] ∧
      [carolFork] ≠ [] ∧ GroupEvents [] = [[]] :=
  ⟨by decide, by decide,
    (GroupEvents_nonempty_groups [alicePush, alicePush2, carolFork]).1 (by decide)
      [carolFork] (by decide),
    (GroupEvents_nonempty_groups []).2 rfl⟩

/-! ## Properties of the rendered output -/

/-- C5 (empty activity): on zero events, `GroupEvents` then `RepresentOutput` returns
exactly `Specified user has no public activity`. -/
theorem RepresentOutput_no_events :
    RepresentOutput (GroupEvents []) = some "Specified user has no public activity" := by
  decide

/-- C6 (PushEvent aggregation): a non-empty list of `PushEvent`s of one actor renders as
the single line `- {login} pushed {n} commits ({repo})`, with the login, the repository
and the number `n` of commits of the first event. -/
theorem RepresentOutput_pushEvents (first : Event) (rest : List Event)
    (hT : ∀ e ∈ first :: rest, e.Typ = "PushEvent")
    (hL : ∀ e ∈ first :: rest, e.Actor.Login = first.Actor.Login) :
    RepresentOutput (GroupEvents (first :: rest))
      = some ("- " ++ first.Actor.Login ++ " pushed "
          ++ toString first.Payload.Commits.length
          ++ " commits (" ++ first.Repo.Name ++ ")\n") := by
  rw [GroupEvents_run _ (homogeneous_of_first first rest _ hT hL), RepresentOutput_single]
  simp [renderGroup, hT first (by simp), String.empty_append]

/-- Witness of C6: one push of `alice` on `octo/demo` with 3 commits renders as
`- alice pushed 3 commits (octo/demo)`, and so does that push followed by a push of
5 commits. -/
theorem RepresentOutput_pushEvents_witness :
    RepresentOutput (GroupEvents [alicePush]) = some "- alice pushed 3 commits (octo/demo)\n"
      ∧ RepresentOutput (GroupEvents [alicePush, alicePush2])
        = some "- alice pushed 3 commits (octo/demo)\n" :=
  ⟨RepresentOutput_pushEvents alicePush [] (by decide) (by decide),
    RepresentOutput_pushEvents alicePush [alicePush2] (by decide) (by decide)⟩

/-- C7 (count aggregation): a non-empty list of `CommitCommentEvent`s (respectively of
`GollumEvent`s) of one actor, whatever their repositories, renders as the single line
`- {login} commented commit {n} times ({repo})` (respectively
`- {login} updated wiki {n} times ({repo})`), `n` being the number of events in decimal
and the login and repository those of the first event. -/
theorem RepresentOutput_countEvents (first : Event) (rest : List Event)
    (hL : ∀ e ∈ first :: rest, e.Actor.Login = first.Actor.Login) :
    ((∀ e ∈ first :: rest, e.Typ = "CommitCommentEvent") →
      RepresentOutput (GroupEvents (first :: rest))
        = some ("- " ++ first.Actor.Login ++ " commented commit "
            ++ toString (first :: rest).length
            ++ " times (" ++ first.Repo.Name ++ ")\n")) ∧
    ((∀ e ∈ first :: rest, e.Typ = "GollumEvent") →
      RepresentOutput (GroupEvents (first :: rest))
        = some ("- " ++ first.Actor.Login ++ " updated wiki "
            ++ toString (first :: rest).length
            ++ " times (" ++ first.Repo.Name ++ ")\n")) := by
  constructor
  · intro hT
    rw [GroupEvents_run _ (homogeneous_of_first first rest _ hT hL), RepresentOutput_single]
    simp [renderGroup, hT first (by simp), String.empty_append]
  · intro hT
    rw [GroupEvents_run _ (homogeneous_of_first first rest _ hT hL), RepresentOutput_single]
    simp [renderGroup, hT first (by simp), String.empty_append]

/-- Witness of C7: two commit comments of `carol` on `x/y`, and two wiki updates of
`dave` on two repositories. -/
theorem RepresentOutput_countEvents_witness :
    RepresentOutput (GroupEvents carolComments)
        = some "- carol commented commit 2 times (x/y)\n" ∧
      RepresentOutput (GroupEvents daveWiki) = some "- dave updated wiki 2 times (w/a)\n" :=
  ⟨(RepresentOutput_countEvents (mkEvent "CommitCommentEvent" "carol" "x/y" 0)
      [mkEvent "CommitCommentEvent" "carol" "x/y" 0] (by decide)).1 (by decide),
    (RepresentOutput_countEvents (mkEvent "GollumEvent" "dave" "w/a" 0)
      [mkEvent "GollumEvent" "dave" "w/b" 0] (by decide)).2 (by decide)⟩

/-- C8 (per-event mode is not aggregated): a non-empty list of `n` `WatchEvent`s of one
actor renders as `n` lines, the `i`-th being `- {login} starred {repo_i}` built from the
fields of the `i`-th event, in the order of the events. -/
theorem RepresentOutput_watchEvents (events : List Event) (hne : events ≠ [])
    (hT : ∀ e ∈ events, e.Typ = "WatchEvent")
    (hL : ∀ a ∈ events, ∀ b ∈ events, a.Actor.Login = b.Actor.Login) :
    RepresentOutput (GroupEvents events)
      = some (String.join (events.map fun e =>
          "- " ++ e.Actor.Login ++ " starred " ++ e.Repo.Name ++ "\n")) := by
  obtain ⟨first, rest, rfl⟩ := List.exists_cons_of_ne_nil hne
  have hom : Homogeneous (first :: rest) :=
    fun a ha b hb => ⟨(hT a ha).trans (hT b hb).symm, hL a ha b hb⟩
  rw [GroupEvents_run _ hom, RepresentOutput_single]
  simp [renderGroup, hT first (by simp), perEvent_eq, String.empty_append]

/-- Witness of C8: three stars of `bob` on `r1`, `r2`, `r3` render as three lines. -/
theorem RepresentOutput_watchEvents_witness :
    bobWatches.length = 3 ∧
      RepresentOutput (GroupEvents bobWatches)
        = some (String.join ["- bob starred r1\n", "- bob starred r2\n",
            "- bob starred r3\n"]) ∧
      String.join ["- bob starred r1\n", "- bob starred r2\n", "- bob starred r3\n"]
        = "- bob starred r1\n- bob starred r2\n- bob starred r3\n" :=
  ⟨rfl, RepresentOutput_watchEvents bobWatches (by decide) (by decide) (by decide), by decide⟩

/-- C9 (per-event template table): for each of the 14 per-event types, a single event
`e` of that type renders as the template of the type filled with the fields of `e`. -/
theorem RepresentOutput_perEvent_table (e : Event) :
    (e.Typ = "CreateEvent" → RepresentOutput (GroupEvents [e]) = some ("- "
      ++ e.Actor.Login ++ " created a " ++ e.Payload.RefType ++ " (" ++ e.Repo.Name
      ++ ")\n")) ∧
    (e.Typ = "DeleteEvent" → RepresentOutput (GroupEvents [e]) = some ("- "
      ++ e.Actor.Login ++ " deleted a " ++ e.Payload.RefType ++ " (" ++ e.Repo.Name
      ++ ")\n")) ∧
    (e.Typ = "ForkEvent" → RepresentOutput (GroupEvents [e]) = some ("- "
      ++ e.Actor.Login ++ " forked " ++ e.Repo.Name ++ "\n")) ∧
    (e.Typ = "IssueCommentEvent" → RepresentOutput (GroupEvents [e]) = some ("- "
      ++ e.Actor.Login ++ " " ++ e.Payload.Action ++ " comment on some issue("
      ++ e.Repo.Name ++ ")\n")) ∧
    (e.Typ = "IssueEvent" → RepresentOutput (GroupEvents [e]) = some ("- "
      ++ e.Actor.Login ++ " " ++ e.Payload.Action ++ " an issue (" ++ e.Repo.Name
      ++ ")\n")) ∧
    (e.Typ = "MemberEvent" → RepresentOutput (GroupEvents [e]) = some ("- "
      ++ e.Actor.Login ++ " " ++ e.Payload.Action ++ " collaboration (" ++ e.Repo.Name
      ++ ")\n")) ∧
    (e.Typ = "PublicEvent" → RepresentOutput (GroupEvents [e]) = some ("- "
      ++ e.Actor.Login ++ " " ++ e.Payload.Action ++ " " ++ e.Repo.Name ++ "\n")) ∧
    (e.Typ = "PullRequestEvent" → RepresentOutput (GroupEvents [e]) = some ("- "
      ++ e.Actor.Login ++ " " ++ e.Payload.Action ++ " pull request (" ++ e.Repo.Name
      ++ ")\n")) ∧
    (e.Typ = "PullRequestReviewEvent" → RepresentOutput (GroupEvents [e]) = some ("- "
      ++ e.Actor.Login ++ " " ++ e.Payload.Action ++ " pull request review ("
      ++ e.Repo.Name ++ ")\n")) ∧
    (e.Typ = "PullRequestReviewCommentEvent" → RepresentOutput (GroupEvents [e])
      = some ("- " ++ e.Actor.Login ++ " " ++ e.Payload.Action
      ++ " pull request review comment (" ++ e.Repo.Name ++ ")\n")) ∧
    (e.Typ = "PullRequestReviewThreadEvent" → RepresentOutput (GroupEvents [e])
      = some ("- " ++ e.Actor.Login ++ " " ++ e.Payload.Action
      ++ " comment thread on pull request (" ++ e.Repo.Name ++ ")\n")) ∧
    (e.Typ = "ReleaseEvent" → RepresentOutput (GroupEvents [e]) = some ("- "
      ++ e.Actor.Login ++ " " ++ e.Payload.Action ++ " " ++ e.Repo.Name ++ "\n")) ∧
    (e.Typ = "SponsorshipEvent" → RepresentOutput (GroupEvents [e]) = some ("- "
      ++ e.Actor.Login ++ " " ++ e.Payload.Action ++ " sponsorship listing on "
      ++ e.Repo.Name ++ "\n")) ∧
    (e.Typ = "WatchEvent" → RepresentOutput (GroupEvents [e]) = some ("- "
      ++ e.Actor.Login ++ " starred " ++ e.Repo.Name ++ "\n")) := by
  rw [GroupEvents_singleton, RepresentOutput_single]
  refine ⟨?_, ?_, ?_, ?_, ?_, ?_, ?_, ?_, ?_, ?_, ?_, ?_, ?_, ?_⟩ <;>
    (intro h; simp [renderGroup, h, perEvent, String.empty_append])

/-- Witness of C9: the `IssueCommentEvent` by which `erin` `created` a comment on `o/p`
renders as the line of the `IssueCommentEvent` template. -/
theorem RepresentOutput_perEvent_table_witness :
    RepresentOutput (GroupEvents [{ mkEvent "IssueCommentEvent" "erin" "o/p" 0 with
        Payload := { Ref := "", RefType := "", Commits := [], Action := "created" } }])
      = some "- erin created comment on some issue(o/p)\n" :=
  (RepresentOutput_perEvent_table _).2.2.2.1 rfl

/-- C10 (a type change breaks the group): `k ≥ 1` `CommitCommentEvent`s followed by one
`ForkEvent`, all of one actor on one repository, are grouped into the comments and the
fork, and render as `- {login} commented commit {k} times ({repo})` then
`- {login} forked {repo}`. -/
theorem RepresentOutput_comments_then_fork (comments : List Event) (fork : Event)
    (login repo : String) (hne : comments ≠ [])
    (hC : ∀ e ∈ comments,
      e.Typ = "CommitCommentEvent" ∧ e.Actor.Login = login ∧ e.Repo.Name = repo)
    (hF : fork.Typ = "ForkEvent" ∧ fork.Actor.Login = login ∧ fork.Repo.Name = repo) :
    GroupEvents (comments ++ [fork]) = [comments, [fork]] ∧
      RepresentOutput (GroupEvents (comments ++ [fork]))
        = some (("- " ++ login ++ " commented commit " ++ toString comments.length
            ++ " times (" ++ repo ++ ")\n") ++ ("- " ++ login ++ " forked " ++ repo ++ "\n"))
    := by
  have hom : Homogeneous comments :=
    fun a ha b hb => ⟨(hC a ha).1.trans (hC b hb).1.symm,
      (hC a ha).2.1.trans (hC b hb).2.1.symm⟩
  have hgroups : GroupEvents (comments ++ [fork]) = [comments, [fork]] := by
    rcases run_cases comments with rfl | ⟨ys, l, rfl⟩
    · exact absurd rfl hne
    · refine GroupEvents_run_then ys l fork hom (Or.inl ?_)
      rw [hF.1, (hC l (by simp)).1]
      decide
  refine ⟨hgroups, ?_⟩
  obtain ⟨first, rest, rfl⟩ := List.exists_cons_of_ne_nil hne
  obtain ⟨h₁, h₂, h₃⟩ := hC first (by simp)
  obtain ⟨h₄, h₅, h₆⟩ := hF
  rw [hgroups, RepresentOutput_pair]
  simp [renderGroup, perEvent, h₁, h₂, h₃, h₄, h₅, h₆, String.empty_append]

/-- Witness of C10: two commit comments of `carol` on `x/y`, then her fork of `x/y`. -/
theorem RepresentOutput_comments_then_fork_witness :
    GroupEvents (carolComments ++ [carolFork]) = [carolComments, [carolFork]] ∧
      RepresentOutput (GroupEvents (carolComments ++ [carolFork]))
        = some ("- carol commented commit 2 times (x/y)\n" ++ "- carol forked x/y\n") :=
  RepresentOutput_comments_then_fork carolComments carolFork "carol" "x/y" (by decide)
    (by decide) (by decide)

/-! ## Further properties of the pipeline -/

/-- C15 (the empty-activity check is an event-count check): the first group of
`GroupEvents events` exists, and it has length zero if and only if `events` is empty. -/
theorem first_group_empty_iff (events : List Event) :
    ∃ g0, (GroupEvents events).head? = some g0 ∧ (g0.length = 0 ↔ events = []) := by
  by_cases hne : events = []
  · subst hne
    exact ⟨[], rfl, by simp⟩
  · obtain ⟨g0, gs, hg⟩ := List.exists_cons_of_ne_nil (GroupEvents_ne_nil events)
    refine ⟨g0, by rw [hg]; rfl, ?_⟩
    have h0 : g0 ≠ [] := GroupEvents_mem_ne_nil events hne g0 (by rw [hg]; simp)
    constructor
    · intro h; exact absurd (List.length_eq_zero.1 h) h0
    · intro h; exact absurd h hne

/-- C19 (grouping is invisible in per-event mode): on a non-empty list of events of
per-event types the output is the concatenation, in input order, of the
newline-terminated line of each event, that line being the output for the event alone;
there are as many lines as events. -/
theorem RepresentOutput_perEvent_only (events : List Event) (hne : events ≠ [])
    (hT : ∀ e ∈ events, e.Typ ∈ perEventTypes) :
    RepresentOutput (GroupEvents events)
        = some (String.join (events.map fun e => perEventLine e.Typ e ++ "\n")) ∧
      (events.map fun e => perEventLine e.Typ e ++ "\n").length = events.length ∧
      ∀ e ∈ events, RepresentOutput (GroupEvents [e]) = some (perEventLine e.Typ e ++ "\n")
    := by
  have hflat : (GroupEvents events).flatten = events := by
    simpa [GroupEvents] using foldl_groupStep_flatten events ([], [])
  refine ⟨?_, by simp, ?_⟩
  · have hlines : ((GroupEvents events).map groupLines).flatten
        = events.map fun e => perEventLine e.Typ e := by
      have h := flatten_map_lines (fun e => perEventLine e.Typ e) (GroupEvents events)
        (fun g hg => groupLines_perEvent g (GroupEvents_mem_homogeneous events g hg)
          (fun e he => hT e (by rw [← hflat]; exact List.mem_flatten.2 ⟨g, hg, he⟩)))
      rw [h, hflat]
    rw [RepresentOutput_GroupEvents events hne, groupsText, hlines, terminated,
      List.map_map]
    rfl
  · intro e he
    have hg : groupLines [e] = [perEventLine e.Typ e] :=
      groupLines_perEvent [e] (by
        intro a ha b hb
        simp only [List.mem_singleton] at ha hb
        subst ha; subst hb
        exact ⟨rfl, rfl⟩) (by
        intro a ha
        simp only [List.mem_singleton] at ha
        subst ha
        exact hT a he)
    rw [GroupEvents_singleton, RepresentOutput_eq_groupsText _ (by simp) (by simp),
      groupsText_cons, hg, groupsText_nil, String.append_empty]
    simp [terminated, join_cons, join_nil, String.append_empty]

/-- Witness of C19: a fork of `carol`, two stars of `bob` and a star of `carol` fall
into three groups and render as four lines. -/
theorem RepresentOutput_perEvent_only_witness :
    (GroupEvents mixedPerEvent).length = 3 ∧
      RepresentOutput (GroupEvents mixedPerEvent)
        = some "- carol forked x/y\n- bob starred r1\n- bob starred r2\n- carol starred r3\n" :=
  ⟨by decide,
    (RepresentOutput_perEvent_only mixedPerEvent (by decide) (by decide)).1.trans
      (by decide)⟩

/-- C20 (all-unrecognized input): on a non-empty list of events of unrecognized types
the output is the empty string; the message `Specified user has no public activity` is
the output for the empty list and for no other list. -/
theorem RepresentOutput_unrecognized_only (events : List Event) :
    (events ≠ [] → (∀ e ∈ events, e.Typ ∉ recognizedTypes) →
        RepresentOutput (GroupEvents events) = some "") ∧
      (RepresentOutput (GroupEvents events) = some "Specified user has no public activity"
        ↔ events = []) := by
  have hflat : (GroupEvents events).flatten = events := by
    simpa [GroupEvents] using foldl_groupStep_flatten events ([], [])
  constructor
  · intro hne hT
    have hlines : ((GroupEvents events).map groupLines).flatten = [] := by
      rw [List.flatten_eq_nil_iff]
      intro l hl
      obtain ⟨g, hg, rfl⟩ := List.mem_map.1 hl
      obtain ⟨first, rest, rfl⟩ :=
        List.exists_cons_of_ne_nil (GroupEvents_mem_ne_nil events hne g hg)
      exact groupLines_unrecognized first rest
        (hT first (by rw [← hflat]; exact List.mem_flatten.2 ⟨_, hg, by simp⟩))
    rw [RepresentOutput_GroupEvents events hne, groupsText, hlines, terminated_nil]
  · constructor
    · intro h
      by_contra hne
      rw [RepresentOutput_GroupEvents events hne, groupsText] at h
      have h := Option.some.inj h
      rcases terminated_ends ((GroupEvents events).map groupLines).flatten with h0 | h0
      · rw [h0] at h; revert h; decide
      · rw [h] at h0; revert h0; decide
    · rintro rfl
      decide

/-- Witness of C20: two events of an unrecognized type render as the empty string. -/
theorem RepresentOutput_unrecognized_only_witness :
    RepresentOutput (GroupEvents [unknownEvent, unknownEvent]) = some "" :=
  (RepresentOutput_unrecognized_only [unknownEvent, unknownEvent]).1 (by decide) (by decide)

/-! ## Events of an unrecognized type -/

/-- C11 (an event of an unrecognized type contributes no line): for an event `u` whose
type is none of the 17 recognized types, the pipeline succeeds on `pre ++ [u] ++ post`
and its output is the lines rendered for `pre` followed by the lines rendered for `post`,
the empty list rendering no line. -/
theorem unrecognized_event_no_line (pre post : List Event) (u : Event)
    (hu : u.Typ ∉ recognizedTypes) :
    ∃ a b, renderedLines pre = some a ∧ renderedLines post = some b ∧
      RepresentOutput (GroupEvents (pre ++ [u] ++ post)) = some (a ++ b) := by
  refine ⟨_, _, renderedLines_eq pre, renderedLines_eq post, ?_⟩
  rw [RepresentOutput_GroupEvents _ (by simp), groupsText_unrecognized_between pre post u hu]

/-- Witness of C11: an unrecognized event between two commit comments of `carol`; the
output is the line of the first comment followed by the line of the second. -/
theorem unrecognized_event_no_line_witness :
    (∃ a b, renderedLines [carolComment] = some a ∧ renderedLines [carolComment] = some b ∧
        RepresentOutput (GroupEvents ([carolComment] ++ [unknownEvent] ++ [carolComment]))
          = some (a ++ b)) ∧
      renderedLines [carolComment] = some "- carol commented commit 1 times (x/y)\n" :=
  ⟨unrecognized_event_no_line [carolComment] [carolComment] unknownEvent (by decide),
    by decide⟩

/-- Counterexample to C12: an unrecognized event between two commit comments of `carol`
on `x/y` ends the run of the first comment, and the output has two lines counting one
comment each, whereas the two comments alone render as one line counting two. -/
theorem unrecognized_event_breaks_run :
    [carolComment] ++ [carolComment] ≠ [] ∧ unknownEvent.Typ ∉ recognizedTypes ∧
      RepresentOutput (GroupEvents ([carolComment] ++ [unknownEvent] ++ [carolComment]))
        = some ("- carol commented commit 1 times (x/y)\n"
            ++ "- carol commented commit 1 times (x/y)\n") ∧
      RepresentOutput (GroupEvents ([carolComment] ++ [carolComment]))
        = some "- carol commented commit 2 times (x/y)\n" ∧
      RepresentOutput (GroupEvents ([carolComment] ++ [unknownEvent] ++ [carolComment]))
        ≠ RepresentOutput (GroupEvents ([carolComment] ++ [carolComment])) := by
  decide

/-- C12, amended (an event of an unrecognized type ends the run before it): the output
on `pre ++ [u] ++ post` is the output on `pre ++ post`, provided the last event of `pre`
and the first event of `post` do not have one `(Type, Actor.Login)` pair of an aggregated
type (`CommitCommentEvent`, `GollumEvent`, `PushEvent`). -/
theorem unrecognized_event_between (pre post : List Event) (u : Event)
    (hne : pre ++ post ≠ []) (hu : u.Typ ∉ recognizedTypes)
    (hb : ∀ a ∈ pre.getLast?, ∀ b ∈ post.head?,
      a.Typ = b.Typ ∧ a.Actor.Login = b.Actor.Login → a.Typ ∉ aggregateTypes) :
    RepresentOutput (GroupEvents (pre ++ [u] ++ post))
      = RepresentOutput (GroupEvents (pre ++ post)) := by
  rw [RepresentOutput_GroupEvents _ (by simp), RepresentOutput_GroupEvents _ hne,
    groupsText_unrecognized_between pre post u hu, groupsText_GroupEvents_append pre post hb]

/-- Witness of C12, amended: an unrecognized event between two forks of `carol`, and
between her commit comments and her fork. -/
theorem unrecognized_event_between_witness :
    RepresentOutput (GroupEvents ([carolFork] ++ [unknownEvent] ++ [carolFork]))
        = RepresentOutput (GroupEvents ([carolFork] ++ [carolFork])) ∧
      RepresentOutput (GroupEvents (carolComments ++ [unknownEvent] ++ [carolFork]))
        = RepresentOutput (GroupEvents (carolComments ++ [carolFork])) :=
  ⟨unrecognized_event_between [carolFork] [carolFork] unknownEvent (by decide) (by decide)
      (by decide),
    unrecognized_event_between carolComments [carolFork] unknownEvent (by decide)
      (by decide) (by decide)⟩

/-! ## Index safety and the number of groups -/

/-- C17 (index safety of the pipeline): on every event list the index expression of
`GroupEvents` is in range and `GroupEvents` returns at least one group; if the first
group is non-empty then every group is non-empty; and `RepresentOutput` returns a string
on the result, no `groups[0]` or `group[0]` being out of range. -/
theorem pipeline_index_safe (events : List Event) :
    GroupEventsIdx events = some (GroupEvents events) ∧
      GroupEvents events ≠ [] ∧
      ((∀ g0 ∈ (GroupEvents events).head?, g0 ≠ []) → ∀ g ∈ GroupEvents events, g ≠ []) ∧
      ∃ output, (GroupEventsIdx events).bind RepresentOutput = some output := by
  have hidx : GroupEventsIdx events = some (GroupEvents events) := by
    simp [GroupEventsIdx, foldlM_groupStepIdx, GroupEvents]
  refine ⟨hidx, GroupEvents_ne_nil events, ?_, ?_⟩
  · intro h
    by_cases hne : events = []
    · subst hne
      exact absurd rfl (h [] rfl)
    · exact GroupEvents_mem_ne_nil events hne
  · rw [hidx, Option.some_bind]
    by_cases hne : events = []
    · subst hne
      exact ⟨_, rfl⟩
    · exact ⟨_, RepresentOutput_GroupEvents events hne⟩

/-- C18 (group count): on a non-empty list `GroupEvents` returns one group more than
there are indices `i` at which `e_i` and `e_(i+1)` differ in `Type` or in `Actor.Login`;
the number of groups is at least 1 and at most the number of events. -/
theorem GroupEvents_group_count (events : List Event) (hne : events ≠ []) :
    (GroupEvents events).length = 1 + breaks events ∧
      1 ≤ (GroupEvents events).length ∧ (GroupEvents events).length ≤ events.length := by
  obtain ⟨first, rest, rfl⟩ := List.exists_cons_of_ne_nil hne
  have h := GroupEvents_length first rest
  have hle := breaks_le (first :: rest)
  simp only [List.length_cons] at hle ⊢
  omega

/-- Witness of C18: a fork of `carol`, two stars of `bob` and a star of `carol` have two
breaks and three groups. -/
theorem GroupEvents_group_count_witness :
    breaks mixedPerEvent = 2 ∧ mixedPerEvent.length = 4 ∧
      (GroupEvents mixedPerEvent).length = 1 + breaks mixedPerEvent ∧
      1 ≤ (GroupEvents mixedPerEvent).length ∧
      (GroupEvents mixedPerEvent).length ≤ mixedPerEvent.length :=
  ⟨by decide, by decide, GroupEvents_group_count mixedPerEvent (by decide)⟩

/-! ## The sort step -/

/-- C13 (sorting): the sort step of `GetSortedEvents` has a result on every event list,
and every result is non-decreasing by `CreatedAt` and is a permutation of the input, of
the same length; the comparison by `CreatedAt.Before` is a transitive ordering, as
`sort.Slice` requires. -/
theorem sort_step_sorted_perm (events : List Event) :
    TransitiveOrdering less ∧ (∃ sorted, SortSlice less events sorted) ∧
      ∀ sorted, SortSlice less events sorted →
        sorted.Pairwise (fun a b => a.CreatedAt ≤ b.CreatedAt) ∧ sorted.Perm events ∧
          sorted.length = events.length :=
  ⟨less_transitiveOrdering, SortSlice_exists events,
    fun sorted h =>
      ⟨(isSortedBy_less_iff sorted).1 (h.2 less_transitiveOrdering), h.1, h.1.length_eq⟩⟩

/-- Witness of C13: a push created at 5 followed by a fork created at 1 is sorted into
the fork followed by the push. -/
theorem sort_step_sorted_perm_witness :
    SortSlice less [latePush, earlyFork] [earlyFork, latePush] ∧
      [earlyFork, latePush].Pairwise (fun a b => a.CreatedAt ≤ b.CreatedAt) ∧
      [earlyFork, latePush].Perm [latePush, earlyFork] ∧
      [earlyFork, latePush].length = [latePush, earlyFork].length :=
  ⟨And.intro (by decide) (fun _ => by decide),
    (sort_step_sorted_perm [latePush, earlyFork]).2.2 [earlyFork, latePush]
      (And.intro (by decide) (fun _ => by decide))⟩

/-- Counterexample to C14: of thirteen events, `u0`, ..., `u11` created at the instant 1
in this order and `u12` created at the instant 0, the sort step returns `u12` first, as it
must, and the twelve others in another order than that of the input (`u6` before `u0`,
`u1` last): the result holds the events of the input and is in order of `CreatedAt`, but
the events created at the instant 1 are not in their input order. -/
theorem sort_step_not_stable :
    (thirteenEvents.map fun e => (e.Actor.Login, e.CreatedAt))
        = [("u0", 1), ("u1", 1), ("u2", 1), ("u3", 1), ("u4", 1), ("u5", 1), ("u6", 1),
            ("u7", 1), ("u8", 1), ("u9", 1), ("u10", 1), ("u11", 1), ("u12", 0)] ∧
      ∃ sorted, sortSlice thirteenEvents = some sorted ∧
        (sorted.map fun e => e.Actor.Login)
          = ["u12", "u6", "u2", "u3", "u4", "u5", "u0", "u7", "u8", "u9", "u10", "u11",
              "u1"] ∧
        sorted.Perm thirteenEvents ∧ isSortedBy less sorted = true ∧
        sorted.filter (fun e => decide (e.CreatedAt = 1))
          ≠ thirteenEvents.filter (fun e => decide (e.CreatedAt = 1)) :=
  ⟨by decide, _, rfl, by decide, by decide, by decide, by decide⟩

/-- C14, amended (equal timestamps on at most 12 events): on a list of at most 12 events
the sort step returns a list that holds the events of the input, in order of `CreatedAt`,
in which the events created at one instant are in their input order. -/
theorem sort_step_stable_small (events : List Event) (h : events.length ≤ 12) :
    ∃ sorted, sortSlice events = some sorted ∧ SortSlice less events sorted ∧
      ∀ t : Int, sorted.filter (fun e => decide (e.CreatedAt = t))
        = events.filter (fun e => decide (e.CreatedAt = t)) :=
  ⟨insertionSortFunc events 0 events.length, sortSlice_small events h,
    ⟨(insertionSortFunc_keeps 0 events 0 events.length).2,
      fun _ => (isSortedBy_less_iff _).2 (insertionSortFunc_sorted events)⟩,
    fun t => (insertionSortFunc_keeps t events 0 events.length).1⟩

/-- Witness of C14, amended: two events created at the instant 0, one at 5 and one at 1;
the two events created at 0 stay in their input order. -/
theorem sort_step_stable_small_witness :
    sortSlice [alicePush, latePush, carolFork, earlyFork]
        = some [alicePush, carolFork, earlyFork, latePush] ∧
      ∃ sorted, sortSlice [alicePush, latePush, carolFork, earlyFork] = some sorted ∧
        SortSlice less [alicePush, latePush, carolFork, earlyFork] sorted ∧
        ∀ t : Int, sorted.filter (fun e => decide (e.CreatedAt = t))
          = [alicePush, latePush, carolFork, earlyFork].filter
              (fun e => decide (e.CreatedAt = t)) :=
  ⟨by decide, sort_step_stable_small [alicePush, latePush, carolFork, earlyFork] (by decide)⟩

/-! ## The printed text -/

/-- Counterexample to C16: the three stars of `bob` render as three lines that are each
followed by a newline, which is not the three lines joined with a newline between them,
and the text that `main` prints ends with two newlines. -/
theorem output_not_joined_lines :
    ((GroupEvents bobWatches).map groupLines).flatten
        = ["- bob starred r1", "- bob starred r2", "- bob starred r3"] ∧
      RepresentOutput (GroupEvents bobWatches)
        = some "- bob starred r1\n- bob starred r2\n- bob starred r3\n" ∧
      String.intercalate "\n" ((GroupEvents bobWatches).map groupLines).flatten
        = "- bob starred r1\n- bob starred r2\n- bob starred r3" ∧
      RepresentOutput (GroupEvents bobWatches)
        ≠ some (String.intercalate "\n" ((GroupEvents bobWatches).map groupLines).flatten) ∧
      mainOutput bobWatches
        = some "- bob starred r1\n- bob starred r2\n- bob starred r3\n\n" ∧
      (mainOutput bobWatches).map trailingNewlines = some 2 := by
  decide

/-- C16, amended (output format): on a non-empty event list `RepresentOutput` returns the
produced lines, in group order then event order, each followed by a newline, and `main`
prints that string followed by one more newline, so that the printed text ends with two
newlines when a line is produced; on the empty list `main` prints the no-activity message
followed by one newline. -/
theorem output_terminated_lines (events : List Event) :
    (events ≠ [] →
      RepresentOutput (GroupEvents events)
          = some (terminated ((GroupEvents events).map groupLines).flatten) ∧
        mainOutput events
          = some (terminated ((GroupEvents events).map groupLines).flatten ++ "\n") ∧
        (((GroupEvents events).map groupLines).flatten ≠ [] →
          ∃ body, mainOutput events = some (body ++ "\n" ++ "\n"))) ∧
      (events = [] →
        mainOutput events = some ("Specified user has no public activity" ++ "\n")) := by
  constructor
  · intro hne
    have hout := RepresentOutput_GroupEvents events hne
    rw [groupsText] at hout
    have hmain : mainOutput events
        = some (terminated ((GroupEvents events).map groupLines).flatten ++ "\n") := by
      rw [mainOutput, hout]; rfl
    refine ⟨hout, hmain, ?_⟩
    intro hlines
    rcases run_cases_string ((GroupEvents events).map groupLines).flatten with h | ⟨ys, l, h⟩
    · exact absurd h hlines
    · refine ⟨terminated ys ++ l, ?_⟩
      rw [hmain, h, terminated_append]
      simp [terminated, join_cons, join_nil, String.append_empty, String.append_assoc]
  · rintro rfl
    rfl

/-- Witness of C16, amended: the three stars of `bob`. -/
theorem output_terminated_lines_witness :
    RepresentOutput (GroupEvents bobWatches)
        = some (terminated ["- bob starred r1", "- bob starred r2", "- bob starred r3"]) ∧
      mainOutput bobWatches
        = some (terminated ["- bob starred r1", "- bob starred r2", "- bob starred r3"]
            ++ "\n") ∧
      mainOutput [] = some "Specified user has no public activity\n" :=
  ⟨((output_terminated_lines bobWatches).1 (by decide)).1,
    ((output_terminated_lines bobWatches).1 (by decide)).2.1,
    (output_terminated_lines []).2 rfl⟩

end GitHubUserActivity
